import Mathlib

/-!
Verification development for the FlowiseChatEmbed utility modules:
the markdown preprocessor / renderer (`preprocessMarkdown`,
`MarkdownParser.parse`) and the localStorage persistence helpers
(`setLocalStorageChatflow`, `getLocalStorageChatflow`,
`removeLocalStorageChatHistory`).

JavaScript strings are embedded as `List Char`; helper functions mirror
the exact JS string operations used by the source (`split`, `trim`,
`includes`, `startsWith`/`endsWith` on the trimmed string, `repeat`).
-/

namespace Flowise

/-- The JavaScript `\s` / `String.prototype.trim` whitespace set
(ASCII whitespace plus the Unicode space separators used by JS). -/
def jsWS (c : Char) : Bool :=
  c == ' ' || c == '\t' || c == '\n' || c == '\r' ||
  c.toNat == 11 || c.toNat == 12 || c.toNat == 0xa0 || c.toNat == 0x1680 ||
  (0x2000 ≤ c.toNat && c.toNat ≤ 0x200a) ||
  c.toNat == 0x2028 || c.toNat == 0x2029 || c.toNat == 0x202f ||
  c.toNat == 0x205f || c.toNat == 0x3000 || c.toNat == 0xfeff

/-- JS `String.prototype.trim`: drop leading and trailing whitespace. -/
def trimL (l : List Char) : List Char :=
  ((l.dropWhile jsWS).reverse.dropWhile jsWS).reverse

/-- JS `String.prototype.split(sep)` for a single-character separator:
the list of (possibly empty) segments between occurrences of `c`. -/
def splitC (c : Char) : List Char → List (List Char)
  | [] => [[]]
  | x :: xs =>
    if x = c then [] :: splitC c xs
    else
      match splitC c xs with
      | [] => [[x]]
      | s :: ss => (x :: s) :: ss

/-- JS `Array.prototype.join(sep)` specialised to joining lines with `\n`. -/
def joinNL (ls : List (List Char)) : List Char :=
  List.intercalate ['\n'] ls

/-! ## Markdown preprocessor (`preprocessMarkdown`, LoadingBubble.tsx 49-105) -/

/-- `line.split('|').map(s => s.trim()).filter(s => s.length > 0)`. -/
def cellContent (l : List Char) : List (List Char) :=
  ((splitC '|' l).map trimL).filter (fun s => 0 < s.length)

/-- `cellContent.length === 0 || cellContent.every(cell => cell === '' || cell === '-')`. -/
def isEmptyRow (l : List Char) : Bool :=
  (cellContent l).length == 0 ||
  (cellContent l).all (fun cell => cell == ([] : List Char) || cell == ['-'])

/-- The guard that makes the loop `continue`, dropping the line:
the line contains a pipe, is an empty table row, and has no dash. -/
def dropLine (l : List Char) : Bool :=
  l.contains '|' && (isEmptyRow l && !(l.contains '-'))

/-- The JS regex test `/^\s*\|[\s-:|]+\|\s*$/.test(line)`: after trimming,
the line starts and ends with a pipe, has at least one character between
them, and consists only of whitespace, dashes, colons and pipes. -/
def isSeparatorLine (l : List Char) : Bool :=
  decide (3 ≤ (trimL l).length) && (trimL l).head? == some '|' &&
  (trimL l).getLast? == some '|' &&
  (trimL l).all (fun c => jsWS c || c == '-' || c == ':' || c == '|')

/-- `line.split('|').filter(s => s.trim().length > 0 || s.includes('-')).length`. -/
def sepCols (l : List Char) : Nat :=
  ((splitC '|' l).filter (fun s => decide (0 < (trimL s).length) || s.contains '-')).length

/-- `'| ' + '--- | '.repeat(cols - 1) + '--- |'`. -/
def sepOfCols (n : Nat) : List Char :=
  ['|', ' '] ++ (List.replicate (n - 1) "--- | ".toList).flatten ++ "--- |".toList

/-- Normalisation applied to a line inside the loop: a line containing a
pipe and a dash that passes the separator-regex test is replaced by the
canonical separator row for its detected column count. -/
def processLine (l : List Char) : List Char :=
  if l.contains '|' && l.contains '-' && isSeparatorLine l then sepOfCols (sepCols l) else l

/-- `line.trim().startsWith('|') && line.trim().endsWith('|') && !line.includes('-')`. -/
def isTableRow (l : List Char) : Bool :=
  (trimL l).head? == some '|' && (trimL l).getLast? == some '|' && !(l.contains '-')

/-- `line.split('|').filter(s => s.trim().length > 0).length`. -/
def rowCols (l : List Char) : Nat :=
  ((splitC '|' l).filter (fun s => decide (0 < (trimL s).length))).length

/-- `nextLine && !(nextLine.includes('|') && nextLine.includes('-'))`:
the truthiness test makes a missing or empty next line block insertion. -/
def insertCond : Option (List Char) → Bool
  | none => false
  | some nl => !nl.isEmpty && !(nl.contains '|' && nl.contains '-')

/-- The line-processing loop of `preprocessMarkdown`: the Boolean is the
`firstTableRowSeen` flag; the lookahead `rest.head?` is the original
(unprocessed) next line, exactly as `originalLines[i + 1]` in the source. -/
def fixLines : List (List Char) → Bool → List (List Char)
  | [], _ => []
  | l :: rest, seen =>
    if dropLine l then fixLines rest seen
    else
      if isTableRow (processLine l) && !seen then
        if insertCond rest.head? then
          processLine l :: sepOfCols (rowCols (processLine l)) :: fixLines rest true
        else processLine l :: fixLines rest true
      else processLine l :: fixLines rest seen

/-- `preprocessMarkdown` on the `List Char` string model: fast path when
the text contains no pipe, otherwise split into lines, run the loop,
rejoin with newlines. -/
def preprocessL (t : List Char) : List Char :=
  if t.contains '|' then joinNL (fixLines (splitC '\n' t) false) else t

/-- `preprocessMarkdown` at the `String` level. -/
def preprocessMarkdown (s : String) : String :=
  (preprocessL s.toList).asString

/-- The per-line action of the loop apart from separator insertion:
dropped lines map to `none`, surviving lines to their processed form. -/
def procOne (l : List Char) : Option (List Char) :=
  if dropLine l then none else some (processLine l)

/-- A line that survives the drop and is pushed in table-row form:
the line whose push flips `firstTableRowSeen`. -/
def isTrigger (l : List Char) : Bool :=
  !dropLine l && isTableRow (processLine l)

/-- Split a document into the lines before the first trigger line, the
trigger line, and the lines after it. -/
def splitAtTrigger :
    List (List Char) → Option (List (List Char) × List Char × List (List Char))
  | [] => none
  | l :: rest =>
    if isTrigger l then some ([], l, rest)
    else (splitAtTrigger rest).map (fun p => (l :: p.1, p.2.1, p.2.2))

example :
    preprocessMarkdown "| a | b |\n| 1 | 2 |" = "| a | b |\n| --- | --- |\n| 1 | 2 |" := by
  decide

example : preprocessMarkdown "|h|\n| a-b |" = "|h|\n| a-b |" := by decide

example : preprocessMarkdown "no tables here" = "no tables here" := by decide

example : preprocessMarkdown "| a |\n|---|\nx" = "| a |\n| --- |\nx" := by decide

example : preprocessMarkdown "| |\n|a|\n|b|" = "|a|\n| --- |\n|b|" := by decide

/-! ## Basic lemmas about the string-model helpers -/

theorem splitC_ne_nil (c : Char) (l : List Char) : splitC c l ≠ [] := by
  induction l with
  | nil => simp [splitC]
  | cons x xs ih =>
    simp only [splitC]
    split
    · simp
    · cases h : splitC c xs with
      | nil => simp
      | cons s ss => simp

theorem splitC_eq_singleton {c : Char} {l : List Char} (h : c ∉ l) :
    splitC c l = [l] := by
  induction l with
  | nil => rfl
  | cons x xs ih =>
    simp only [List.mem_cons, not_or] at h
    simp only [splitC]
    rw [if_neg (fun hx => h.1 hx.symm), ih h.2]

theorem splitC_append_cons {c : Char} {a : List Char} (b : List Char) (h : c ∉ a) :
    splitC c (a ++ c :: b) = a :: splitC c b := by
  induction a with
  | nil => simp [splitC]
  | cons x xs ih =>
    simp only [List.mem_cons, not_or] at h
    simp only [List.cons_append, splitC]
    rw [if_neg (fun hx => h.1 hx.symm),
      show xs.append (c :: b) = xs ++ c :: b from rfl, ih h.2]

theorem not_mem_of_mem_splitC {c : Char} {l : List Char} {s : List Char}
    (hs : s ∈ splitC c l) : c ∉ s := by
  induction l generalizing s with
  | nil =>
    simp only [splitC, List.mem_singleton] at hs
    subst hs; simp
  | cons x xs ih =>
    simp only [splitC] at hs
    split at hs
    · rcases List.mem_cons.mp hs with h1 | h1
      · subst h1; simp
      · exact ih h1
    · rename_i hxc
      cases hsp : splitC c xs with
      | nil => exact absurd hsp (splitC_ne_nil c xs)
      | cons t ts =>
        rw [hsp] at hs
        rcases List.mem_cons.mp hs with h1 | h1
        · subst h1
          intro hmem
          rcases List.mem_cons.mp hmem with h2 | h2
          · exact hxc h2.symm
          · exact ih (hsp ▸ List.mem_cons_self t ts) h2
        · exact ih (hsp ▸ List.mem_cons_of_mem t h1)

theorem splitC_joinNL {out : List (List Char)} (hne : out ≠ [])
    (hnl : ∀ l ∈ out, ('\n' : Char) ∉ l) :
    splitC '\n' (joinNL out) = out := by
  induction out with
  | nil => exact absurd rfl hne
  | cons a t ih =>
    cases t with
    | nil =>
      simp only [joinNL, List.intercalate, List.intersperse, List.flatten,
        List.append_nil]
      exact splitC_eq_singleton (hnl a (List.mem_singleton.mpr rfl))
    | cons b t2 =>
      have hstep : joinNL (a :: b :: t2) = a ++ '\n' :: joinNL (b :: t2) := by
        simp [joinNL, List.intercalate, List.intersperse]
      rw [hstep, splitC_append_cons _ (hnl a (by simp)),
        ih (by simp) (fun l hl => hnl l (List.mem_cons_of_mem a hl))]

theorem mem_of_joinNL_contains {out : List (List Char)} {c : Char}
    (hc : c ∈ joinNL out) (hne : c ≠ '\n') : ∃ l ∈ out, c ∈ l := by
  induction out with
  | nil => simp [joinNL, List.intercalate] at hc
  | cons a t ih =>
    cases t with
    | nil =>
      simp only [joinNL, List.intercalate, List.intersperse, List.flatten,
        List.append_nil] at hc
      exact ⟨a, by simp, hc⟩
    | cons b t2 =>
      have hstep : joinNL (a :: b :: t2) = a ++ '\n' :: joinNL (b :: t2) := by
        simp [joinNL, List.intercalate, List.intersperse]
      rw [hstep] at hc
      rcases List.mem_append.mp hc with h1 | h1
      · exact ⟨a, by simp, h1⟩
      · rcases List.mem_cons.mp h1 with h2 | h2
        · exact absurd h2 hne
        · obtain ⟨l, hl, hcl⟩ := ih h2
          exact ⟨l, List.mem_cons_of_mem a hl, hcl⟩

theorem joinNL_nil : joinNL [] = [] := rfl

theorem contains_iff {l : List Char} {c : Char} : l.contains c = true ↔ c ∈ l :=
  List.elem_iff

theorem contains_false_iff {l : List Char} {c : Char} : l.contains c = false ↔ c ∉ l := by
  rw [← Bool.not_eq_true, not_iff_not, contains_iff]

/-! ## Structure of the canonical separator row -/

theorem sepOfCols_zero : sepOfCols 0 = sepOfCols 1 := rfl

theorem sepOfCols_cons (n : Nat) :
    sepOfCols n =
      '|' :: ' ' :: ((List.replicate (n - 1) "--- | ".toList).flatten ++ "--- |".toList) := by
  simp [sepOfCols]

theorem sepOfCols_succ_succ (k : Nat) :
    sepOfCols (k + 2) = "| --- ".toList ++ sepOfCols (k + 1) := by
  simp [sepOfCols, List.replicate_succ]

theorem mem_sepOfCols {n : Nat} {c : Char} (h : c ∈ sepOfCols n) :
    c = '|' ∨ c = ' ' ∨ c = '-' := by
  have e1 : "--- | ".toList = ['-', '-', '-', ' ', '|', ' '] := rfl
  have e2 : "--- |".toList = ['-', '-', '-', ' ', '|'] := rfl
  simp only [sepOfCols, e1, e2, List.mem_append, List.mem_flatten] at h
  rcases h with (h | ⟨l, hl, hcl⟩) | h
  · simp only [List.mem_cons, List.not_mem_nil, or_false] at h
    tauto
  · rw [List.eq_of_mem_replicate hl] at hcl
    simp only [List.mem_cons, List.not_mem_nil, or_false] at hcl
    tauto
  · simp only [List.mem_cons, List.not_mem_nil, or_false] at h
    tauto

theorem pipe_mem_sepOfCols (n : Nat) : '|' ∈ sepOfCols n := by
  rw [sepOfCols_cons]; simp

theorem dash_mem_sepOfCols (n : Nat) : '-' ∈ sepOfCols n := by
  simp [sepOfCols]

theorem newline_not_mem_sepOfCols (n : Nat) : ('\n' : Char) ∉ sepOfCols n := by
  intro h
  rcases mem_sepOfCols h with h1 | h1 | h1 <;> exact absurd h1 (by decide)

theorem sepOfCols_ne_nil (n : Nat) : sepOfCols n ≠ [] := by
  rw [sepOfCols_cons]; simp

theorem trimL_sepOfCols (n : Nat) : trimL (sepOfCols n) = sepOfCols n := by
  have hrev : (sepOfCols n).reverse =
      '|' :: (' ' :: '-' :: '-' :: '-' ::
        ((['|', ' '] ++ (List.replicate (n - 1) "--- | ".toList).flatten).reverse)) := by
    simp [sepOfCols, List.reverse_append]
  unfold trimL
  rw [sepOfCols_cons, List.dropWhile_cons_of_neg (by decide), ← sepOfCols_cons,
    hrev, List.dropWhile_cons_of_neg (by decide), ← hrev, List.reverse_reverse]

theorem head?_sepOfCols (n : Nat) : (sepOfCols n).head? = some '|' := by
  rw [sepOfCols_cons]; rfl

theorem getLast?_sepOfCols (n : Nat) : (sepOfCols n).getLast? = some '|' := by
  rw [← List.head?_reverse]
  simp [sepOfCols, List.reverse_append]

theorem length_sepOfCols (n : Nat) : 3 ≤ (sepOfCols n).length := by
  have e2 : "--- |".toList.length = 5 := rfl
  simp only [sepOfCols, List.length_append, e2]
  omega

theorem isSeparatorLine_sepOfCols (n : Nat) : isSeparatorLine (sepOfCols n) = true := by
  simp only [isSeparatorLine, trimL_sepOfCols, Bool.and_eq_true, beq_iff_eq,
    decide_eq_true_eq, List.all_eq_true]
  refine ⟨⟨⟨length_sepOfCols n, head?_sepOfCols n⟩, getLast?_sepOfCols n⟩, ?_⟩
  intro c hc
  rcases mem_sepOfCols hc with h | h | h <;> subst h <;> decide

theorem contains_pipe_sepOfCols (n : Nat) : (sepOfCols n).contains '|' = true :=
  contains_iff.mpr (pipe_mem_sepOfCols n)

theorem contains_dash_sepOfCols (n : Nat) : (sepOfCols n).contains '-' = true :=
  contains_iff.mpr (dash_mem_sepOfCols n)

theorem filter_replicate_length {α : Type} (p : α → Bool) (a : α) (n : Nat)
    (h : p a = true) : ((List.replicate n a).filter p).length = n := by
  induction n with
  | zero => rfl
  | succ k ih => simp [List.replicate_succ, List.filter_cons, h, ih]

theorem splitC_sepOfCols (k : Nat) :
    splitC '|' (sepOfCols (k + 1)) = [[]] ++ List.replicate (k + 1) " --- ".toList ++ [[]] := by
  induction k with
  | zero => decide
  | succ j ih =>
    have hcons : sepOfCols (j + 1 + 1) =
        '|' :: (" --- ".toList ++ sepOfCols (j + 1)) := by
      rw [sepOfCols_succ_succ]
      rfl
    have hsplit1 : splitC '|' (sepOfCols (j + 1 + 1)) =
        [] :: splitC '|' (" --- ".toList ++ sepOfCols (j + 1)) := by
      rw [hcons]; simp [splitC]
    have hys : sepOfCols (j + 1) =
        '|' :: (' ' :: ((List.replicate j "--- | ".toList).flatten ++ "--- |".toList)) :=
      sepOfCols_cons (j + 1)
    have hsplit2 : splitC '|' (" --- ".toList ++ sepOfCols (j + 1)) =
        " --- ".toList ::
          splitC '|' (' ' :: ((List.replicate j "--- | ".toList).flatten ++ "--- |".toList)) := by
      rw [hys]
      exact splitC_append_cons _ (by decide)
    have hir : splitC '|' (sepOfCols (j + 1)) =
        [] :: splitC '|' (' ' :: ((List.replicate j "--- | ".toList).flatten ++ "--- |".toList)) := by
      rw [hys]; simp [splitC]
    rw [hir] at ih
    have htail : splitC '|' (' ' :: ((List.replicate j "--- | ".toList).flatten ++ "--- |".toList)) =
        List.replicate (j + 1) " --- ".toList ++ [[]] := by
      have h2 := ih
      simp only [List.cons_append, List.nil_append] at h2
      exact (List.cons.inj h2).2
    rw [hsplit1, hsplit2, htail]
    simp [List.replicate_succ]

theorem sepCols_sepOfCols (n : Nat) : sepCols (sepOfCols n) = max 1 n := by
  cases n with
  | zero => rw [sepOfCols_zero]; decide
  | succ k =>
    simp only [sepCols, splitC_sepOfCols k]
    have hp : (fun s => decide (0 < (trimL s).length) || s.contains '-') " --- ".toList = true := by
      decide
    have hq : (decide (0 < (trimL ([] : List Char)).length) || ([] : List Char).contains '-')
        = false := rfl
    rw [List.filter_append, List.filter_append]
    simp only [List.filter_cons, List.filter_nil, hq, Bool.false_eq_true, if_false,
      List.nil_append, List.append_nil, List.length_append, List.length_nil]
    rw [filter_replicate_length (fun s => decide (0 < (trimL s).length) || s.contains '-')
      " --- ".toList (k + 1) hp]
    simp

theorem processLine_sepOfCols (n : Nat) : processLine (sepOfCols n) = sepOfCols n := by
  unfold processLine
  rw [if_pos]
  · rw [sepCols_sepOfCols]
    cases n with
    | zero => rw [Nat.max_eq_left (by omega)]; exact sepOfCols_zero.symm
    | succ k => rw [Nat.max_eq_right (by omega)]
  · rw [contains_pipe_sepOfCols, contains_dash_sepOfCols, isSeparatorLine_sepOfCols]
    rfl

theorem processLine_idem (l : List Char) : processLine (processLine l) = processLine l := by
  by_cases h : (l.contains '|' && l.contains '-' && isSeparatorLine l) = true
  · have h1 : processLine l = sepOfCols (sepCols l) := by unfold processLine; rw [if_pos h]
    rw [h1, processLine_sepOfCols]
  · have h1 : processLine l = l := by unfold processLine; rw [if_neg h]
    rw [h1, h1]

theorem dropLine_processLine {l : List Char} (h : dropLine l = false) :
    dropLine (processLine l) = false := by
  unfold processLine
  split
  · unfold dropLine
    rw [contains_dash_sepOfCols]
    simp
  · exact h

theorem processLine_nl_free {l : List Char} (h : ('\n' : Char) ∉ l) :
    ('\n' : Char) ∉ processLine l := by
  unfold processLine
  split
  · exact newline_not_mem_sepOfCols _
  · exact h

/-! ## Fixed-point lemmas for the preprocessing loop -/

theorem dropLine_sepOfCols (n : Nat) : dropLine (sepOfCols n) = false := by
  unfold dropLine
  rw [contains_dash_sepOfCols]
  simp

theorem insertCond_sepOfCols (n : Nat) : insertCond (some (sepOfCols n)) = false := by
  simp only [insertCond]
  rw [contains_pipe_sepOfCols, contains_dash_sepOfCols]
  simp

theorem fixLines_true_eq (ls : List (List Char)) :
    fixLines ls true = ls.filterMap procOne := by
  induction ls with
  | nil => rfl
  | cons l rest ih =>
    cases hd : dropLine l with
    | true => simp [fixLines, hd, List.filterMap_cons, ih, procOne]
    | false => simp [fixLines, hd, List.filterMap_cons, ih, procOne]

theorem fixLines_true_fix (ls : List (List Char)) :
    fixLines (fixLines ls true) true = fixLines ls true := by
  induction ls with
  | nil => rfl
  | cons l rest ih =>
    cases hd : dropLine l with
    | true => simp [fixLines, hd, ih]
    | false =>
      have e1 : fixLines (l :: rest) true = processLine l :: fixLines rest true := by
        simp [fixLines, hd]
      have e2 : fixLines (processLine l :: fixLines rest true) true =
          processLine (processLine l) :: fixLines (fixLines rest true) true := by
        simp [fixLines, dropLine_processLine hd]
      rw [e1, e2, processLine_idem, ih]

theorem insertCond_fixLines_true {rest : List (List Char)}
    (h : insertCond rest.head? = false) :
    insertCond (fixLines rest true).head? = false := by
  cases rest with
  | nil => rfl
  | cons r rs =>
    simp only [List.head?_cons, insertCond] at h
    by_cases he : r = []
    · subst he
      have ed : dropLine ([] : List Char) = false := rfl
      have ep : processLine ([] : List Char) = [] := rfl
      have e1 : fixLines ([] :: rs) true = [] :: fixLines rs true := by
        simp [fixLines, ed, ep]
      rw [e1]
      rfl
    · have hne : r.isEmpty = false := by
        cases r with
        | nil => exact absurd rfl he
        | cons a as => rfl
      rw [hne] at h
      simp only [Bool.not_false, Bool.true_and, Bool.not_eq_false] at h
      have hpd : r.contains '|' = true ∧ r.contains '-' = true := by
        constructor
        · cases hp : r.contains '|' with
          | true => rfl
          | false => rw [hp] at h; simp at h
        · cases hp : r.contains '-' with
          | true => rfl
          | false => rw [hp] at h; simp at h
      have hd : dropLine r = false := by
        unfold dropLine
        rw [hpd.2]
        simp
      have e1 : fixLines (r :: rs) true = processLine r :: fixLines rs true := by
        simp [fixLines, hd]
      rw [e1]
      unfold processLine
      split
      · exact insertCond_sepOfCols _
      · simp only [List.head?_cons, insertCond, hpd.1, hpd.2]
        simp

theorem fixLines_false_fix (ls : List (List Char)) :
    fixLines (fixLines ls false) false = fixLines ls false := by
  induction ls with
  | nil => rfl
  | cons l rest ih =>
    cases hd : dropLine l with
    | true =>
      have e1 : fixLines (l :: rest) false = fixLines rest false := by
        simp [fixLines, hd]
      rw [e1, ih]
    | false =>
      have hd2 : dropLine (processLine l) = false := dropLine_processLine hd
      cases htr : isTableRow (processLine l) with
      | false =>
        have e1 : fixLines (l :: rest) false = processLine l :: fixLines rest false := by
          simp [fixLines, hd, htr]
        have e2 : fixLines (processLine l :: fixLines rest false) false =
            processLine (processLine l) :: fixLines (fixLines rest false) false := by
          simp [fixLines, hd2, processLine_idem, htr]
        rw [e1, e2, processLine_idem, ih]
      | true =>
        cases hins : insertCond rest.head? with
        | true =>
          have e1 : fixLines (l :: rest) false =
              processLine l :: sepOfCols (rowCols (processLine l)) :: fixLines rest true := by
            simp [fixLines, hd, htr, hins]
          have e2 : fixLines (processLine l ::
                sepOfCols (rowCols (processLine l)) :: fixLines rest true) false =
              processLine (processLine l) ::
                fixLines (sepOfCols (rowCols (processLine l)) :: fixLines rest true) true := by
            simp [fixLines, hd2, processLine_idem, htr, insertCond_sepOfCols]
          have e3 : fixLines (sepOfCols (rowCols (processLine l)) :: fixLines rest true) true =
              sepOfCols (rowCols (processLine l)) :: fixLines (fixLines rest true) true := by
            simp [fixLines, dropLine_sepOfCols, processLine_sepOfCols]
          rw [e1, e2, e3, processLine_idem, fixLines_true_fix]
        | false =>
          have e1 : fixLines (l :: rest) false = processLine l :: fixLines rest true := by
            simp [fixLines, hd, htr, hins]
          have e2 : fixLines (processLine l :: fixLines rest true) false =
              processLine (processLine l) :: fixLines (fixLines rest true) true := by
            simp [fixLines, hd2, processLine_idem, htr, insertCond_fixLines_true hins]
          rw [e1, e2, processLine_idem, fixLines_true_fix]

theorem fixLines_nl_free {ls : List (List Char)} (h : ∀ l ∈ ls, ('\n' : Char) ∉ l)
    (seen : Bool) : ∀ l ∈ fixLines ls seen, ('\n' : Char) ∉ l := by
  induction ls generalizing seen with
  | nil => simp [fixLines]
  | cons x rest ih =>
    intro l hl
    have hx := h x (by simp)
    have hr : ∀ l ∈ rest, ('\n' : Char) ∉ l := fun l hl => h l (List.mem_cons_of_mem _ hl)
    simp only [fixLines] at hl
    split at hl
    · exact ih hr seen l hl
    · split at hl
      · split at hl
        · rcases List.mem_cons.mp hl with h1 | h1
          · subst h1; exact processLine_nl_free hx
          · rcases List.mem_cons.mp h1 with h2 | h2
            · subst h2; exact newline_not_mem_sepOfCols _
            · exact ih hr true l h2
        · rcases List.mem_cons.mp hl with h1 | h1
          · subst h1; exact processLine_nl_free hx
          · exact ih hr true l h1
      · rcases List.mem_cons.mp hl with h1 | h1
        · subst h1; exact processLine_nl_free hx
        · exact ih hr seen l h1

theorem preprocessL_idem (t : List Char) : preprocessL (preprocessL t) = preprocessL t := by
  cases hp : t.contains '|' with
  | false =>
    have e : preprocessL t = t := by unfold preprocessL; rw [hp]; simp
    rw [e, e]
  | true =>
    have e : preprocessL t = joinNL (fixLines (splitC '\n' t) false) := by
      unfold preprocessL; rw [hp]; simp
    rw [e]
    cases hp2 : (joinNL (fixLines (splitC '\n' t) false)).contains '|' with
    | false =>
      conv_lhs => unfold preprocessL
      rw [hp2]
      simp
    | true =>
      have hne : fixLines (splitC '\n' t) false ≠ [] := by
        intro h0
        rw [h0] at hp2
        simp [joinNL_nil] at hp2
      have hnl : ∀ l ∈ fixLines (splitC '\n' t) false, ('\n' : Char) ∉ l :=
        fixLines_nl_free (fun l hl => not_mem_of_mem_splitC hl) false
      conv_lhs => unfold preprocessL
      rw [hp2]
      simp only [if_true]
      rw [splitC_joinNL hne hnl, fixLines_false_fix]

theorem toList_asString (l : List Char) : (List.asString l).toList = l := rfl

/-- C5: the markdown preprocessor is idempotent — running `preprocessMarkdown`
a second time on its own output returns exactly the same string as running
it once, for every input string. -/
theorem preprocessMarkdown_idempotent (s : String) :
    preprocessMarkdown (preprocessMarkdown s) = preprocessMarkdown s := by
  unfold preprocessMarkdown
  rw [toList_asString, preprocessL_idem]

/-! ## Characterisation of the one-shot separator insertion (C4) -/

theorem fixLines_characterization (ls : List (List Char)) :
    fixLines ls false =
      match splitAtTrigger ls with
      | none => ls.filterMap procOne
      | some (pre, t, post) =>
          pre.filterMap procOne ++ processLine t ::
            ((if insertCond post.head? then [sepOfCols (rowCols (processLine t))] else []) ++
              post.filterMap procOne) := by
  induction ls with
  | nil => rfl
  | cons l rest ih =>
    cases hd : dropLine l with
    | true =>
      have e1 : fixLines (l :: rest) false = fixLines rest false := by
        simp [fixLines, hd]
      have etr : isTrigger l = false := by simp [isTrigger, hd]
      have epo : procOne l = none := by simp [procOne, hd]
      rw [e1, ih]
      simp only [splitAtTrigger, etr, Bool.false_eq_true, if_false]
      cases hsp : splitAtTrigger rest with
      | none => simp [List.filterMap_cons, epo]
      | some p => simp [List.filterMap_cons, epo]
    | false =>
      cases htr : isTableRow (processLine l) with
      | true =>
        have etr : isTrigger l = true := by simp [isTrigger, hd, htr]
        have e2 : splitAtTrigger (l :: rest) = some ([], l, rest) := by
          simp [splitAtTrigger, etr]
        rw [e2]
        cases hins : insertCond rest.head? with
        | true =>
          have e1 : fixLines (l :: rest) false =
              processLine l :: sepOfCols (rowCols (processLine l)) :: fixLines rest true := by
            simp [fixLines, hd, htr, hins]
          rw [e1, fixLines_true_eq]
          simp [hins, procOne]
        | false =>
          have e1 : fixLines (l :: rest) false = processLine l :: fixLines rest true := by
            simp [fixLines, hd, htr, hins]
          rw [e1, fixLines_true_eq]
          simp [hins, procOne]
      | false =>
        have etr : isTrigger l = false := by simp [isTrigger, hd, htr]
        have e1 : fixLines (l :: rest) false = processLine l :: fixLines rest false := by
          simp [fixLines, hd, htr]
        have epo : procOne l = some (processLine l) := by simp [procOne, hd]
        rw [e1, ih]
        simp only [splitAtTrigger, etr, Bool.false_eq_true, if_false]
        cases hsp : splitAtTrigger rest with
        | none => simp [List.filterMap_cons, epo]
        | some p => simp [List.filterMap_cons, epo]

/-- C4 (amended): on every document containing a pipe, the preprocessor
output is the per-line processed document with at most one synthesized
separator row, inserted immediately after the first surviving line pushed
in table-row form, and the insertion happens exactly when the following
original source line exists, is non-empty, and does not contain both a
pipe and a dash (`insertCond`) — not "is not a separator row" as the
original claim stated. -/
theorem preprocessL_insertion_characterization (t : List Char)
    (h : t.contains '|' = true) :
    preprocessL t =
      joinNL (match splitAtTrigger (splitC '\n' t) with
        | none => (splitC '\n' t).filterMap procOne
        | some (pre, tr, post) =>
            pre.filterMap procOne ++ processLine tr ::
              ((if insertCond post.head? then [sepOfCols (rowCols (processLine tr))] else []) ++
                post.filterMap procOne)) := by
  unfold preprocessL
  rw [h]
  simp only [if_true]
  rw [fixLines_characterization]

theorem preprocessL_insertion_characterization_witness :
    "| a |\n| 1 |".toList.contains '|' = true ∧
    preprocessL "| a |\n| 1 |".toList =
      joinNL (match splitAtTrigger (splitC '\n' "| a |\n| 1 |".toList) with
        | none => (splitC '\n' "| a |\n| 1 |".toList).filterMap procOne
        | some (pre, tr, post) =>
            pre.filterMap procOne ++ processLine tr ::
              ((if insertCond post.head? then [sepOfCols (rowCols (processLine tr))] else []) ++
                post.filterMap procOne)) :=
  ⟨by decide, preprocessL_insertion_characterization "| a |\n| 1 |".toList (by decide)⟩

/-- C4 counterexample: in the document `"|h|\n| a-b |"` the first line is
recognised as a table row, and the following original line `"| a-b |"` is
not a separator row (it fails the separator regex), so the claim as stated
requires a synthesized separator to be inserted; but the code's lookahead
only checks that the next line contains a pipe and a dash, which
`"| a-b |"` does, so the output is the input unchanged — no insertion. -/
theorem preprocessMarkdown_insertion_counterexample :
    preprocessMarkdown "|h|\n| a-b |" = "|h|\n| a-b |" ∧
    isTableRow (processLine "|h|".toList) = true ∧
    isSeparatorLine "| a-b |".toList = false := by
  decide

/-! ## Column counts are positive wherever a separator row is built (C9) -/

theorem mem_splitC_of_mem {c c' : Char} {l : List Char} (h : c' ∈ l) (hne : c' ≠ c) :
    ∃ s ∈ splitC c l, c' ∈ s := by
  induction l with
  | nil => exact absurd h (List.not_mem_nil c')
  | cons x xs ih =>
    simp only [splitC]
    by_cases hx : x = c
    · rw [if_pos hx]
      have hxs : c' ∈ xs := by
        rcases List.mem_cons.mp h with h1 | h1
        · exact absurd (h1.trans hx) hne
        · exact h1
      obtain ⟨s, hs, hcs⟩ := ih hxs
      exact ⟨s, List.mem_cons_of_mem _ hs, hcs⟩
    · rw [if_neg hx]
      cases hsp : splitC c xs with
      | nil => exact absurd hsp (splitC_ne_nil c xs)
      | cons s0 ss0 =>
        rcases List.mem_cons.mp h with h1 | h1
        · exact ⟨x :: s0, List.mem_cons_self _ _, h1 ▸ List.mem_cons_self _ _⟩
        · obtain ⟨s, hs, hcs⟩ := ih h1
          rw [hsp] at hs
          rcases List.mem_cons.mp hs with h2 | h2
          · exact ⟨x :: s0, List.mem_cons_self _ _, h2 ▸ List.mem_cons_of_mem _ hcs⟩
          · exact ⟨s, List.mem_cons_of_mem _ h2, hcs⟩

theorem mem_of_mem_trimL {c : Char} {l : List Char} (h : c ∈ trimL l) : c ∈ l := by
  unfold trimL at h
  rw [List.mem_reverse] at h
  have h2 := (List.dropWhile_sublist jsWS).mem h
  rw [List.mem_reverse] at h2
  exact (List.dropWhile_sublist jsWS).mem h2

theorem sepCols_pos {l : List Char} (hdash : l.contains '-' = true) : 1 ≤ sepCols l := by
  obtain ⟨s, hs, hcs⟩ := @mem_splitC_of_mem '|' '-' l (contains_iff.mp hdash) (by decide)
  have hps : (decide (0 < (trimL s).length) || s.contains '-') = true := by
    rw [contains_iff.mpr hcs]
    simp
  have hmem : s ∈ (splitC '|' l).filter
      (fun s => decide (0 < (trimL s).length) || s.contains '-') :=
    List.mem_filter.mpr ⟨hs, hps⟩
  exact List.length_pos.mpr (List.ne_nil_of_mem hmem)

theorem rowCols_pos {l : List Char} (hrow : isTableRow l = true)
    (hdrop : dropLine l = false) : 1 ≤ rowCols l := by
  simp only [isTableRow, Bool.and_eq_true, beq_iff_eq, Bool.not_eq_true',
    contains_false_iff] at hrow
  obtain ⟨⟨hhead, _⟩, hnodash⟩ := hrow
  have hpipe : '|' ∈ l := by
    have h1 : '|' ∈ trimL l := by
      cases ht : trimL l with
      | nil => rw [ht] at hhead; exact absurd hhead (by simp)
      | cons a as =>
        rw [ht] at hhead
        simp only [List.head?_cons, Option.some.injEq] at hhead
        exact hhead ▸ List.mem_cons_self _ _
    exact mem_of_mem_trimL h1
  unfold dropLine at hdrop
  rw [contains_iff.mpr hpipe, contains_false_iff.mpr hnodash] at hdrop
  simp only [Bool.not_false, Bool.and_true, Bool.true_and] at hdrop
  unfold isEmptyRow at hdrop
  have hcells : (cellContent l).length ≠ 0 := by
    intro h0
    rw [h0] at hdrop
    simp at hdrop
  unfold rowCols
  unfold cellContent at hcells
  rw [List.filter_map] at hcells
  rw [List.length_map] at hcells
  have : ((splitC '|' l).filter ((fun s => decide (0 < s.length)) ∘ trimL)).length =
      ((splitC '|' l).filter (fun s => decide (0 < (trimL s).length))).length := rfl
  rw [this] at hcells
  omega

/-- C9: at both sites that build a separator row — normalisation of an
existing separator line (guarded by the line containing a pipe and a dash
and matching the separator regex) and synthesis after the first table row
(guarded by the line surviving the drop and being pushed in table-row
form) — the detected column count is at least 1, so the JS string-repeat
count `cols - 1` is never negative. -/
theorem separator_column_count_positive :
    (∀ l : List Char, l.contains '|' = true → l.contains '-' = true →
      isSeparatorLine l = true → 1 ≤ sepCols l) ∧
    (∀ l : List Char, dropLine l = false → isTableRow (processLine l) = true →
      1 ≤ rowCols (processLine l)) := by
  constructor
  · intro l _ hdash _
    exact sepCols_pos hdash
  · intro l hdrop hrow
    have hpl : processLine l = l := by
      cases hg : (l.contains '|' && l.contains '-' && isSeparatorLine l) with
      | true =>
        have e : processLine l = sepOfCols (sepCols l) := by
          unfold processLine; rw [if_pos hg]
        rw [e] at hrow
        unfold isTableRow at hrow
        rw [contains_dash_sepOfCols] at hrow
        simp at hrow
      | false => simp only [processLine, hg, Bool.false_eq_true, if_false]
    rw [hpl] at hrow ⊢
    exact rowCols_pos hrow hdrop

theorem separator_column_count_positive_witness :
    1 ≤ sepCols "| - |".toList ∧ 1 ≤ rowCols (processLine "| a |".toList) :=
  ⟨separator_column_count_positive.1 "| - |".toList (by decide) (by decide) (by decide),
   separator_column_count_positive.2 "| a |".toList (by decide) (by decide)⟩

end Flowise

namespace Flowise

/-! ## JSON value model for the localStorage persistence helpers

The stored values are `JSON.stringify` images of plain JS values.  The
store is modelled as holding the decoded record for each key: every value
this module writes is the serialization of a record, and `JSON.parse`
recovers exactly that record, so the decode-failure fallbacks of
`getLocalStorageChatflow` / `removeLocalStorageChatHistory` never fire on
states produced by these operations.  `localStorage.setItem` quota
failures (the `catch` fallback writing `{chatId}`) are outside the model:
the modelled store never fails a write. -/

inductive JVal where
  | jnull : JVal
  | jbool : Bool → JVal
  | jnum : Int → JVal
  | jstr : List Char → JVal
  | jarr : List JVal → JVal
  | jobj : List (List Char × JVal) → JVal

/-- A JS object: an insertion-ordered association list of fields. -/
abbrev JObj := List (List Char × JVal)

/-- JS truthiness of a value (`if (x)`): `null`, `false`, `0` and the
empty string are falsy; arrays and objects are always truthy. -/
def truthy : JVal → Bool
  | .jnull => false
  | .jbool b => b
  | .jnum n => !(n == 0)
  | .jstr s => !s.isEmpty
  | .jarr _ => true
  | .jobj _ => true

/-- Property read `o.k`. -/
def JObj.get (o : JObj) (k : List Char) : Option JVal :=
  List.lookup k o

/-- Property write `o.k = v`: replaces the value in place if the key is
present, otherwise appends the new field (JS insertion order). -/
def JObj.set (o : JObj) (k : List Char) (v : JVal) : JObj :=
  if (List.lookup k o).isSome then
    o.map (fun p => if p.1 = k then (p.1, v) else p)
  else o ++ [(k, v)]

/-- The spread merge `{ ...a, ...b }`: `a`'s keys in order with `b`'s
values where both have the key, then `b`'s remaining keys in order. -/
def JObj.mergeSpread (a b : JObj) : JObj :=
  (a.map (fun p =>
    match List.lookup p.1 b with
    | some v => (p.1, v)
    | none => p)) ++
  b.filter (fun p => (List.lookup p.1 a).isNone)

/-- Lowercase hex digit, as emitted by `JSON.stringify` control escapes. -/
def hexDigit (n : Nat) : Char :=
  if n < 10 then Char.ofNat (48 + n) else Char.ofNat (87 + n)

/-- `JSON.stringify` escaping of one character inside a string literal. -/
def escapeJsonChar (c : Char) : List Char :=
  if c = '"' then ['\\', '"']
  else if c = '\\' then ['\\', '\\']
  else if c = '\n' then ['\\', 'n']
  else if c = '\r' then ['\\', 'r']
  else if c = '\t' then ['\\', 't']
  else if c.toNat = 8 then ['\\', 'b']
  else if c.toNat = 12 then ['\\', 'f']
  else if c.toNat < 32 then
    ['\\', 'u', '0', '0', hexDigit (c.toNat / 16), hexDigit (c.toNat % 16)]
  else [c]

/-- A serialized JSON string literal. -/
def serStr (s : List Char) : List Char :=
  '"' :: (s.flatMap escapeJsonChar ++ ['"'])

def lbrace : Char := Char.ofNat 123

def rbrace : Char := Char.ofNat 125

mutual

/-- `JSON.stringify` (numbers restricted to integers, which print without
a decimal point, as in JS). -/
def serialize : JVal → List Char
  | .jnull => "null".toList
  | .jbool true => "true".toList
  | .jbool false => "false".toList
  | .jnum n => (toString n).toList
  | .jstr s => serStr s
  | .jarr xs => '[' :: (serializeArr xs ++ [']'])
  | .jobj fs => lbrace :: (serializeFields fs ++ [rbrace])

/-- Comma-separated serialization of array elements. -/
def serializeArr : List JVal → List Char
  | [] => []
  | [x] => serialize x
  | x :: y :: t => serialize x ++ ',' :: serializeArr (y :: t)

/-- Comma-separated serialization of object fields. -/
def serializeFields : JObj → List Char
  | [] => []
  | [p] => serStr p.1 ++ ':' :: serialize p.2
  | p :: q :: t => (serStr p.1 ++ ':' :: serialize p.2) ++ ',' :: serializeFields (q :: t)

end

/-- `new Blob([s]).size`: the UTF-8 byte length of a string. -/
def utf8Len (l : List Char) : Nat :=
  (l.map Char.utf8Size).sum

/-- The storage key `` `${chatflowid}_EXTERNAL` ``. -/
def storageKey (chatflowid : List Char) : List Char :=
  chatflowid ++ "_EXTERNAL".toList

/-- The browser key-value store, holding the decoded record per key. -/
abbrev Store := List Char → Option JObj

def emptyStore : Store := fun _ => none

def Store.set (st : Store) (k : List Char) (v : JObj) : Store :=
  fun q => if q = k then some v else st q

def Store.erase (st : Store) (k : List Char) : Store :=
  fun q => if q = k then none else st q

def chatIdKey : List Char := "chatId".toList

def chatHistoryKey : List Char := "chatHistory".toList

def leadKey : List Char := "lead".toList

/-- The three heavyweight fields removed from every history entry. -/
def heavyKey (k : List Char) : Bool :=
  k == "agentReasoning".toList || k == "sourceDocuments".toList || k == "artifacts".toList

/-- `const { agentReasoning, sourceDocuments, artifacts, ...rest } = msg`:
for an object, `rest` is the object without the three fields; destructuring
`null` throws a `TypeError` (modelled as `none`); destructuring an array or
string collects its index properties; numbers and booleans give `{}`. -/
def stripHeavy : JVal → Option JVal
  | .jnull => none
  | .jobj fs => some (.jobj (fs.filter (fun p => !heavyKey p.1)))
  | .jarr xs => some (.jobj (xs.enum.map (fun p => ((toString p.1).toList, p.2))))
  | .jstr s => some (.jobj (s.enum.map (fun p => ((toString p.1).toList, .jstr [p.2]))))
  | _ => some (.jobj [])

/-- `const obj = { ...saveObj }; if (chatId) obj.chatId = chatId;`:
the record with the chat identifier merged in when non-empty. -/
def baseObj (chatId : List Char) (saveObj : JObj) : JObj :=
  if !chatId.isEmpty then JObj.set saveObj chatIdKey (.jstr chatId) else saveObj

/-- The record actually measured and written by `setLocalStorageChatflow`:
`{ ...saveObj }` with `chatId` merged in when non-empty, and `chatHistory`
(when it is an array) truncated to the last 30 entries with the heavy
fields stripped per entry.  `none` models the `TypeError` thrown when a
history entry is `null`/`undefined`. -/
def trimmedObj (chatId : List Char) (saveObj : JObj) : Option JObj :=
  match JObj.get (baseObj chatId saveObj) chatHistoryKey with
  | some (.jarr h) =>
    ((h.drop (h.length - 30)).mapM stripHeavy).map
      (fun h2 => JObj.set (baseObj chatId saveObj) chatHistoryKey (.jarr h2))
  | _ => some (baseObj chatId saveObj)

/-- `const merged = { ...parsed, ...obj }; if (obj.chatHistory)
merged.chatHistory = obj.chatHistory;`: the spread merge, with the new
history (when truthy) replacing the old wholesale. -/
def mergedRecord (parsed obj : JObj) : JObj :=
  match JObj.get obj chatHistoryKey with
  | some hv =>
    if truthy hv then JObj.set (JObj.mergeSpread parsed obj) chatHistoryKey hv
    else JObj.mergeSpread parsed obj
  | none => JObj.mergeSpread parsed obj

/-- `setLocalStorageChatflow(chatflowid, chatId, saveObj)`
(LoadingBubble.tsx 316-357): trim the record, measure it, abort when the
serialization exceeds 2000 bytes; otherwise merge over any existing record
and write. -/
def setLocalStorageChatflow (st : Store) (chatflowid chatId : List Char)
    (saveObj : JObj) : Store :=
  match trimmedObj chatId saveObj with
  | none => st
  | some obj =>
    if 2000 < utf8Len (serialize (.jobj obj)) then st
    else
      match st (storageKey chatflowid) with
      | some parsed => Store.set st (storageKey chatflowid) (mergedRecord parsed obj)
      | none => Store.set st (storageKey chatflowid) obj

/-- `getLocalStorageChatflow(chatflowid)` (LoadingBubble.tsx 359-367):
returns the stored record, or `{}` when the key is absent. -/
def getLocalStorageChatflow (st : Store) (chatflowid : List Char) : JObj :=
  match st (storageKey chatflowid) with
  | none => []
  | some o => o

/-- `removeLocalStorageChatHistory(chatflowid)` (LoadingBubble.tsx
369-385): removes the record, but when the stored record has a truthy
`lead` field, rewrites the key as a record holding only that field. -/
def removeLocalStorageChatHistory (st : Store) (chatflowid : List Char) : Store :=
  match st (storageKey chatflowid) with
  | none => st
  | some parsed =>
    match JObj.get parsed leadKey with
    | some v =>
      if truthy v then
        Store.set (Store.erase st (storageKey chatflowid)) (storageKey chatflowid)
          [(leadKey, v)]
      else Store.erase st (storageKey chatflowid)
    | none => Store.erase st (storageKey chatflowid)

/-- The serialized byte size of the record stored for a conversation id
(0 when nothing is stored). -/
def storedSize (st : Store) (chatflowid : List Char) : Nat :=
  match st (storageKey chatflowid) with
  | some r => utf8Len (serialize (.jobj r))
  | none => 0

/-- The serialized byte size of the trimmed record that the cap check
measures (0 when trimming throws). -/
def trimmedSize (chatId : List Char) (saveObj : JObj) : Nat :=
  match trimmedObj chatId saveObj with
  | some r => utf8Len (serialize (.jobj r))
  | none => 0

/-- Stores reachable from an empty browser storage by any sequence of
save and clear-history operations (`load` does not modify the store). -/
inductive Reachable : Store → Prop
  | empty : Reachable emptyStore
  | save (st : Store) (id cid : List Char) (obj : JObj) :
      Reachable st → Reachable (setLocalStorageChatflow st id cid obj)
  | clear (st : Store) (id : List Char) :
      Reachable st → Reachable (removeLocalStorageChatHistory st id)

/-! ## Field-lookup lemmas for the object operations -/

theorem lookup_cons_eq (t : JObj) (x : List Char) (w : JVal) {k : List Char}
    (h : k = x) : List.lookup k ((x, w) :: t) = some w := by
  subst h
  simp [List.lookup]

theorem lookup_cons_ne (t : JObj) (x : List Char) (w : JVal) {k : List Char}
    (h : k ≠ x) : List.lookup k ((x, w) :: t) = List.lookup k t := by
  simp only [List.lookup, beq_eq_false_iff_ne.mpr h]

theorem lookup_append_alt (x y : JObj) (k : List Char) :
    List.lookup k (x ++ y) =
      match List.lookup k x with
      | some v => some v
      | none => List.lookup k y := by
  induction x with
  | nil => simp
  | cons p t ih =>
    obtain ⟨a, w⟩ := p
    by_cases hk : k = a
    · rw [List.cons_append, lookup_cons_eq _ a w hk, lookup_cons_eq _ a w hk]
    · rw [List.cons_append, lookup_cons_ne _ a w hk, lookup_cons_ne _ a w hk, ih]

theorem lookup_map_update (o : JObj) (k : List Char) (v : JVal)
    (hs : (List.lookup k o).isSome = true) :
    List.lookup k (o.map (fun p => if p.1 = k then (p.1, v) else p)) = some v := by
  induction o with
  | nil => simp at hs
  | cons p t ih =>
    obtain ⟨a, w⟩ := p
    simp only [List.map_cons]
    by_cases hpk : (a, w).1 = k
    · rw [if_pos hpk]
      exact lookup_cons_eq _ a v hpk.symm
    · rw [if_neg hpk]
      rw [lookup_cons_ne _ a w (fun h => hpk h.symm)] at hs
      rw [lookup_cons_ne _ a w (fun h => hpk h.symm)]
      exact ih hs

theorem lookup_map_other (o : JObj) (k k' : List Char) (v : JVal) (h : k' ≠ k) :
    List.lookup k' (o.map (fun p => if p.1 = k then (p.1, v) else p)) =
      List.lookup k' o := by
  induction o with
  | nil => simp
  | cons p t ih =>
    obtain ⟨a, w⟩ := p
    simp only [List.map_cons]
    by_cases hpk : (a, w).1 = k
    · rw [if_pos hpk]
      have hne : k' ≠ a := fun hh => h (hh.trans hpk)
      rw [lookup_cons_ne _ a v hne, lookup_cons_ne _ a w hne, ih]
    · rw [if_neg hpk]
      by_cases hk : k' = a
      · rw [lookup_cons_eq _ a w hk, lookup_cons_eq _ a w hk]
      · rw [lookup_cons_ne _ a w hk, lookup_cons_ne _ a w hk, ih]

theorem JObj.get_set_self (o : JObj) (k : List Char) (v : JVal) :
    JObj.get (JObj.set o k v) k = some v := by
  unfold JObj.set JObj.get
  split
  · exact lookup_map_update o k v (by assumption)
  · rename_i hn
    rw [lookup_append_alt]
    have h0 : List.lookup k o = none := by
      cases h : List.lookup k o with
      | none => rfl
      | some w => rw [h] at hn; simp at hn
    rw [h0]
    simp [List.lookup]

theorem JObj.get_set_other (o : JObj) (k k' : List Char) (v : JVal) (h : k' ≠ k) :
    JObj.get (JObj.set o k v) k' = JObj.get o k' := by
  unfold JObj.set JObj.get
  split
  · exact lookup_map_other o k k' v h
  · rw [lookup_append_alt]
    cases hx : List.lookup k' o with
    | some w => rfl
    | none => simp [List.lookup, beq_eq_false_iff_ne.mpr h]

theorem lookup_map_merge (a b : JObj) (k : List Char) :
    List.lookup k (a.map (fun p =>
      match List.lookup p.1 b with
      | some v => (p.1, v)
      | none => p)) =
      match List.lookup k a with
      | some w => some ((List.lookup k b).getD w)
      | none => none := by
  induction a with
  | nil => simp
  | cons p t ih =>
    obtain ⟨x, w⟩ := p
    simp only [List.map_cons]
    by_cases hk : k = x
    · cases hb : List.lookup (x, w).1 b with
      | some v =>
        simp only [hb]
        rw [lookup_cons_eq _ x v hk, lookup_cons_eq _ x w hk]
        simp only
        rw [show List.lookup k b = some v from hk ▸ hb]
        rfl
      | none =>
        simp only [hb]
        rw [lookup_cons_eq _ x w hk, lookup_cons_eq _ x w hk]
        simp only
        rw [show List.lookup k b = none from hk ▸ hb]
        rfl
    · cases hb : List.lookup (x, w).1 b with
      | some v =>
        simp only [hb]
        rw [lookup_cons_ne _ x v hk, lookup_cons_ne _ x w hk, ih]
      | none =>
        simp only [hb]
        rw [lookup_cons_ne _ x w hk, lookup_cons_ne _ x w hk, ih]

theorem lookup_filter_isNone (a b : JObj) (k : List Char) :
    List.lookup k (b.filter (fun p => (List.lookup p.1 a).isNone)) =
      match List.lookup k a with
      | some _ => none
      | none => List.lookup k b := by
  induction b with
  | nil => cases List.lookup k a <;> simp
  | cons q t ih =>
    obtain ⟨x, w⟩ := q
    cases hq : (List.lookup (x, w).1 a).isNone with
    | true =>
      have hfc : List.filter (fun p => (List.lookup p.1 a).isNone) ((x, w) :: t) =
          (x, w) :: List.filter (fun p => (List.lookup p.1 a).isNone) t := by
        simp [List.filter_cons, hq]
      by_cases hk : k = x
      · have ha : List.lookup k a = none := by
          subst hk
          exact Option.isNone_iff_eq_none.mp hq
        rw [hfc, lookup_cons_eq _ x w hk, lookup_cons_eq _ x w hk, ha]
      · rw [hfc, lookup_cons_ne _ x w hk, lookup_cons_ne _ x w hk, ih]
    | false =>
      have hfc : List.filter (fun p => (List.lookup p.1 a).isNone) ((x, w) :: t) =
          List.filter (fun p => (List.lookup p.1 a).isNone) t := by
        simp [List.filter_cons, hq]
      by_cases hk : k = x
      · cases h2 : List.lookup k a with
        | none =>
          rw [hk] at h2
          rw [h2] at hq
          simp at hq
        | some u =>
          rw [hfc, ih, h2]
      · rw [hfc, ih, lookup_cons_ne _ x w hk]

theorem JObj.get_mergeSpread (a b : JObj) (k : List Char) :
    JObj.get (JObj.mergeSpread a b) k =
      match JObj.get b k with
      | some v => some v
      | none => JObj.get a k := by
  unfold JObj.mergeSpread JObj.get
  rw [lookup_append_alt, lookup_map_merge, lookup_filter_isNone]
  cases ha : List.lookup k a with
  | none => cases hb : List.lookup k b <;> simp
  | some w => cases hb : List.lookup k b <;> simp

/-! ## Unfolding equations for the storage operations -/

theorem setLocal_throw {st : Store} {id cid : List Char} {saveObj : JObj}
    (h : trimmedObj cid saveObj = none) :
    setLocalStorageChatflow st id cid saveObj = st := by
  unfold setLocalStorageChatflow
  rw [h]

theorem setLocal_oversize {st : Store} {id cid : List Char} {saveObj obj : JObj}
    (h : trimmedObj cid saveObj = some obj)
    (hs : 2000 < utf8Len (serialize (.jobj obj))) :
    setLocalStorageChatflow st id cid saveObj = st := by
  unfold setLocalStorageChatflow
  simp only [h]
  rw [if_pos hs]

theorem setLocal_merge {st : Store} {id cid : List Char} {saveObj obj parsed : JObj}
    (h : trimmedObj cid saveObj = some obj)
    (hs : ¬ 2000 < utf8Len (serialize (.jobj obj)))
    (hp : st (storageKey id) = some parsed) :
    setLocalStorageChatflow st id cid saveObj =
      Store.set st (storageKey id) (mergedRecord parsed obj) := by
  unfold setLocalStorageChatflow
  simp only [h]
  rw [if_neg hs]
  simp only [hp]

theorem setLocal_fresh {st : Store} {id cid : List Char} {saveObj obj : JObj}
    (h : trimmedObj cid saveObj = some obj)
    (hs : ¬ 2000 < utf8Len (serialize (.jobj obj)))
    (hp : st (storageKey id) = none) :
    setLocalStorageChatflow st id cid saveObj = Store.set st (storageKey id) obj := by
  unfold setLocalStorageChatflow
  simp only [h]
  rw [if_neg hs]
  simp only [hp]

theorem remove_absent {st : Store} {id : List Char}
    (hp : st (storageKey id) = none) :
    removeLocalStorageChatHistory st id = st := by
  unfold removeLocalStorageChatHistory
  rw [hp]

theorem remove_truthy_lead {st : Store} {id : List Char} {parsed : JObj} {v : JVal}
    (hp : st (storageKey id) = some parsed)
    (hl : JObj.get parsed leadKey = some v) (ht : truthy v = true) :
    removeLocalStorageChatHistory st id =
      Store.set (Store.erase st (storageKey id)) (storageKey id) [(leadKey, v)] := by
  unfold removeLocalStorageChatHistory
  simp only [hp, hl]
  rw [if_pos ht]

theorem remove_falsy_lead {st : Store} {id : List Char} {parsed : JObj} {v : JVal}
    (hp : st (storageKey id) = some parsed)
    (hl : JObj.get parsed leadKey = some v) (ht : truthy v = false) :
    removeLocalStorageChatHistory st id = Store.erase st (storageKey id) := by
  unfold removeLocalStorageChatHistory
  simp only [hp, hl]
  rw [if_neg (by rw [ht]; exact Bool.false_ne_true)]

theorem remove_no_lead {st : Store} {id : List Char} {parsed : JObj}
    (hp : st (storageKey id) = some parsed)
    (hl : JObj.get parsed leadKey = none) :
    removeLocalStorageChatHistory st id = Store.erase st (storageKey id) := by
  unfold removeLocalStorageChatHistory
  simp only [hp, hl]

theorem store_set_self (st : Store) (k : List Char) (v : JObj) :
    Store.set st k v k = some v := by
  simp [Store.set]

theorem store_set_other (st : Store) (k k' : List Char) (v : JObj) (h : k' ≠ k) :
    Store.set st k v k' = st k' := by
  simp [Store.set, h]

theorem store_erase_self (st : Store) (k : List Char) :
    Store.erase st k k = none := by
  simp [Store.erase]

theorem store_erase_other (st : Store) (k k' : List Char) (h : k' ≠ k) :
    Store.erase st k k' = st k' := by
  simp [Store.erase, h]

/-! ## The history cap is a reachability invariant (C2, amended) -/

theorem length_mapM_stripHeavy :
    ∀ {h h2 : List JVal}, h.mapM stripHeavy = some h2 → h2.length = h.length := by
  intro h
  induction h with
  | nil =>
    intro h2 hm
    simp only [List.mapM_nil, pure, Option.some.injEq] at hm
    rw [← hm]
  | cons x t ih =>
    intro h2 hm
    rw [List.mapM_cons] at hm
    cases hx : stripHeavy x with
    | none => rw [hx] at hm; simp at hm
    | some y =>
      rw [hx] at hm
      cases ht : t.mapM stripHeavy with
      | none => rw [ht] at hm; simp at hm
      | some ys =>
        rw [ht] at hm
        simp only [Option.bind_eq_bind, Option.some_bind, pure, Option.some.injEq] at hm
        rw [← hm, List.length_cons, ih ht, List.length_cons]

theorem trimmedObj_history_le {cid : List Char} {saveObj obj : JObj}
    (hobj : trimmedObj cid saveObj = some obj)
    {h : List JVal} (hg : JObj.get obj chatHistoryKey = some (.jarr h)) :
    h.length ≤ 30 := by
  unfold trimmedObj at hobj
  split at hobj
  · rename_i h0 heq
    cases hm : (h0.drop (h0.length - 30)).mapM stripHeavy with
    | none => rw [hm] at hobj; simp at hobj
    | some h2 =>
      rw [hm] at hobj
      simp only [Option.map_some, Option.map_some', Option.some.injEq] at hobj
      rw [← hobj, JObj.get_set_self] at hg
      have hh2 : JVal.jarr h2 = JVal.jarr h := Option.some.inj hg
      have hlen := length_mapM_stripHeavy hm
      have hdrop : (h0.drop (h0.length - 30)).length = h0.length - (h0.length - 30) :=
        List.length_drop _ _
      have heq2 : h2 = h := by injection hh2
      rw [heq2] at hlen
      omega
  · rename_i heq
    have hbase : obj = baseObj cid saveObj := (Option.some.inj hobj).symm
    subst hbase
    exact absurd hg (heq h)

theorem mergedRecord_history (parsed obj : JObj) (h : List JVal)
    (hg : JObj.get (mergedRecord parsed obj) chatHistoryKey = some (.jarr h)) :
    JObj.get obj chatHistoryKey = some (.jarr h) ∨
    (JObj.get obj chatHistoryKey = none ∧
      JObj.get parsed chatHistoryKey = some (.jarr h)) := by
  unfold mergedRecord at hg
  cases ho : JObj.get obj chatHistoryKey with
  | some hv =>
    simp only [ho] at hg
    cases htr : truthy hv with
    | true =>
      rw [htr, if_pos rfl, JObj.get_set_self] at hg
      exact Or.inl hg
    | false =>
      rw [htr] at hg
      simp only [Bool.false_eq_true, if_false, JObj.get_mergeSpread, ho] at hg
      exact Or.inl hg
  | none =>
    simp only [ho] at hg
    rw [JObj.get_mergeSpread, ho] at hg
    exact Or.inr ⟨rfl, hg⟩

/-- C2 (amended): over every store reachable from empty storage by any
sequence of save and clear-history operations, any stored record whose
`chatHistory` field is an array has at most 30 entries.  The serialized
2000-byte bound of the original claim is enforced only on the incoming
trimmed record, not on the merged record that is actually written, and
fails as an invariant (see the counterexample). -/
theorem reachable_history_cap {st : Store} (hst : Reachable st) :
    ∀ k r, st k = some r →
      ∀ h, JObj.get r chatHistoryKey = some (.jarr h) → h.length ≤ 30 := by
  induction hst with
  | empty =>
    intro k r hr
    exact absurd hr (by simp [emptyStore])
  | save st0 id cid obj hst0 ih =>
    intro k r hr h hh
    cases hobj : trimmedObj cid obj with
    | none =>
      rw [setLocal_throw hobj] at hr
      exact ih k r hr h hh
    | some obj2 =>
      by_cases hs : 2000 < utf8Len (serialize (.jobj obj2))
      · rw [setLocal_oversize hobj hs] at hr
        exact ih k r hr h hh
      · cases hp : st0 (storageKey id) with
        | some parsed =>
          rw [setLocal_merge hobj hs hp] at hr
          by_cases hk : k = storageKey id
          · rw [hk, store_set_self] at hr
            have hrm : r = mergedRecord parsed obj2 := (Option.some.inj hr).symm
            subst hrm
            rcases mergedRecord_history parsed obj2 h hh with h1 | ⟨_, h2⟩
            · exact trimmedObj_history_le hobj h1
            · exact ih (storageKey id) parsed hp h h2
          · rw [store_set_other st0 _ _ _ hk] at hr
            exact ih k r hr h hh
        | none =>
          rw [setLocal_fresh hobj hs hp] at hr
          by_cases hk : k = storageKey id
          · rw [hk, store_set_self] at hr
            have hrm : r = obj2 := (Option.some.inj hr).symm
            subst hrm
            exact trimmedObj_history_le hobj hh
          · rw [store_set_other st0 _ _ _ hk] at hr
            exact ih k r hr h hh
  | clear st0 id hst0 ih =>
    intro k r hr h hh
    cases hp : st0 (storageKey id) with
    | none =>
      rw [remove_absent hp] at hr
      exact ih k r hr h hh
    | some parsed =>
      cases hl : JObj.get parsed leadKey with
      | some v =>
        cases ht : truthy v with
        | true =>
          rw [remove_truthy_lead hp hl ht] at hr
          by_cases hk : k = storageKey id
          · rw [hk, store_set_self] at hr
            have hrm : r = [(leadKey, v)] := (Option.some.inj hr).symm
            subst hrm
            rw [show JObj.get [(leadKey, v)] chatHistoryKey = none from
              (lookup_cons_ne _ leadKey v (by decide)).trans rfl] at hh
            exact absurd hh (by simp)
          · rw [store_set_other _ _ _ _ hk, store_erase_other _ _ _ hk] at hr
            exact ih k r hr h hh
        | false =>
          rw [remove_falsy_lead hp hl ht] at hr
          by_cases hk : k = storageKey id
          · rw [hk, store_erase_self] at hr
            exact absurd hr (by simp)
          · rw [store_erase_other _ _ _ hk] at hr
            exact ih k r hr h hh
      | none =>
        rw [remove_no_lead hp hl] at hr
        by_cases hk : k = storageKey id
        · rw [hk, store_erase_self] at hr
          exact absurd hr (by simp)
        · rw [store_erase_other _ _ _ hk] at hr
          exact ih k r hr h hh

set_option maxRecDepth 8000 in
theorem reachable_history_cap_witness :
    (List.replicate 30 (JVal.jobj ([] : JObj))).length ≤ 30 :=
  reachable_history_cap
    (Reachable.save emptyStore "w".toList "i".toList
      [("chatHistory".toList, .jarr (List.replicate 31 (JVal.jobj [])))] Reachable.empty)
    (storageKey "w".toList) _ rfl _ rfl

/-- A three-byte (UTF-8) character used to build large payloads cheaply. -/
def cjk : Char := Char.ofNat 0x4e2d

/-- A record whose trimmed serialization is about 1220 bytes. -/
def cexSaveA : JObj := [("a".toList, .jstr (List.replicate 400 cjk))]

/-- A second record, also about 1220 bytes, under a different key. -/
def cexSaveB : JObj := [("b".toList, .jstr (List.replicate 400 cjk))]

/-- The store after saving `cexSaveA` for conversation `"c"` on empty storage. -/
def cexStore1 : Store :=
  setLocalStorageChatflow emptyStore "c".toList "i".toList cexSaveA

/-- The store after additionally saving `cexSaveB` for the same conversation:
the merge path combines both large fields without re-checking the cap. -/
def cexStore2 : Store :=
  setLocalStorageChatflow cexStore1 "c".toList "i".toList cexSaveB

set_option maxRecDepth 100000 in
/-- C2 counterexample: a sequence of two saves, each given a record whose
own trimmed serialization passes the 2000-byte cap check, leaves a stored
record whose serialized size exceeds 2000 bytes — the cap is checked
before merging, never on the merged record that is written. -/
theorem storage_size_cap_counterexample :
    trimmedSize "i".toList cexSaveA ≤ 2000 ∧
    trimmedSize "i".toList cexSaveB ≤ 2000 ∧
    2000 < storedSize cexStore2 "c".toList := by
  decide

/-! ## Lead preservation across clearHistory (C3) -/

/-- C3 (amended): for every stored record whose `lead` field is truthy
(any value other than `null`, `false`, `0` or the empty string — in
particular any object, the type leads actually have), running
`clearHistory` and then `load` for that conversation returns exactly the
one-field record `{ lead: v }` with the lead value unchanged.  A stored
record whose `lead` field is present but falsy is removed outright. -/
theorem clearHistory_preserves_truthy_lead (st : Store) (id : List Char)
    (r : JObj) (v : JVal) (hr : st (storageKey id) = some r)
    (hv : JObj.get r leadKey = some v) (ht : truthy v = true) :
    getLocalStorageChatflow (removeLocalStorageChatHistory st id) id = [(leadKey, v)] := by
  unfold getLocalStorageChatflow
  rw [remove_truthy_lead hr hv ht]
  simp only [store_set_self]

theorem clearHistory_preserves_truthy_lead_witness :
    getLocalStorageChatflow (removeLocalStorageChatHistory
      (Store.set emptyStore (storageKey "c".toList)
        [(leadKey, JVal.jobj [("e".toList, JVal.jstr "x".toList)])])
      "c".toList) "c".toList =
      [(leadKey, JVal.jobj [("e".toList, JVal.jstr "x".toList)])] :=
  clearHistory_preserves_truthy_lead _ _ _ _ rfl rfl rfl

/-- The store holding `{ lead: null, chatId: "x" }`, produced by the save
operation itself on empty storage. -/
def cexLeadStore : Store :=
  setLocalStorageChatflow emptyStore "c".toList "x".toList [("lead".toList, JVal.jnull)]

/-- C3 counterexample: a stored record that contains a `lead` field whose
value is `null` (falsy): `clearHistory` removes the record outright —
`if (parsedChatDetails.lead)` tests truthiness, not presence — so the
subsequent `load` returns `{}` without the `lead` field, not an object
containing only the unchanged `lead` field as the claim states. -/
theorem clearHistory_lead_counterexample :
    cexLeadStore (storageKey "c".toList) =
      some [("lead".toList, JVal.jnull), ("chatId".toList, JVal.jstr "x".toList)] ∧
    getLocalStorageChatflow
      (removeLocalStorageChatHistory cexLeadStore "c".toList) "c".toList = [] ∧
    JObj.get (getLocalStorageChatflow
      (removeLocalStorageChatHistory cexLeadStore "c".toList) "c".toList) leadKey = none :=
  ⟨rfl, rfl, rfl⟩

/-! ## Oversized saves leave storage untouched (C6) -/

/-- C6: when the trimmed record's serialized form exceeds 2000 bytes,
`setLocalStorageChatflow` performs no write at all: the value stored for
the conversation identifier — indeed the entire store — is exactly what it
was before the call. -/
theorem save_oversized_preserves_state (st : Store) (id cid : List Char)
    (saveObj obj : JObj) (hobj : trimmedObj cid saveObj = some obj)
    (hsize : 2000 < utf8Len (serialize (.jobj obj))) :
    (setLocalStorageChatflow st id cid saveObj) (storageKey id) = st (storageKey id) ∧
    setLocalStorageChatflow st id cid saveObj = st := by
  refine ⟨?_, ?_⟩
  · rw [setLocal_oversize hobj hsize]
  · rw [setLocal_oversize hobj hsize]

set_option maxRecDepth 100000 in
theorem save_oversized_preserves_state_witness :
    (setLocalStorageChatflow emptyStore "c".toList "i".toList
      [("a".toList, .jstr (List.replicate 700 cjk))]) (storageKey "c".toList) =
      emptyStore (storageKey "c".toList) ∧
    setLocalStorageChatflow emptyStore "c".toList "i".toList
      [("a".toList, .jstr (List.replicate 700 cjk))] = emptyStore :=
  save_oversized_preserves_state emptyStore "c".toList "i".toList _ _ rfl (by decide)

/-! ## History trimming on save (C7) -/

/-- Whether a JS value is a plain object. -/
def isObjVal : JVal → Bool
  | .jobj _ => true
  | _ => false

/-- The pure per-entry strip of the three heavyweight fields. -/
def stripObj : JVal → JVal
  | .jobj fs => .jobj (fs.filter (fun p => !heavyKey p.1))
  | v => v

theorem stripHeavy_of_obj {v : JVal} (h : isObjVal v = true) :
    stripHeavy v = some (stripObj v) := by
  cases v <;> first
  | rfl
  | simp [isObjVal] at h

theorem mapM_stripHeavy_of_objs {l : List JVal} (h : l.all isObjVal = true) :
    l.mapM stripHeavy = some (l.map stripObj) := by
  induction l with
  | nil => rfl
  | cons x t ih =>
    rw [List.all_cons, Bool.and_eq_true] at h
    rw [List.mapM_cons, stripHeavy_of_obj h.1, ih h.2]
    rfl

theorem get_baseObj_history (cid : List Char) (saveObj : JObj) :
    JObj.get (baseObj cid saveObj) chatHistoryKey = JObj.get saveObj chatHistoryKey := by
  unfold baseObj
  split
  · exact JObj.get_set_other _ _ _ _ (by decide)
  · rfl

theorem get_mergedRecord_of_truthy {parsed obj : JObj} {hv : JVal}
    (h : JObj.get obj chatHistoryKey = some hv) (ht : truthy hv = true) :
    JObj.get (mergedRecord parsed obj) chatHistoryKey = some hv := by
  unfold mergedRecord
  simp only [h]
  rw [if_pos ht, JObj.get_set_self]

theorem load_after_set (st : Store) (id : List Char) (v : JObj) :
    getLocalStorageChatflow (Store.set st (storageKey id) v) id = v := by
  unfold getLocalStorageChatflow
  simp only [store_set_self]

/-- C7 (amended): for every record whose `chatHistory` is an array of 40
object entries and whose trimmed serialization is within the 2000-byte cap,
after `save` the stored `chatHistory` has exactly 30 entries — the most
recent 30 (entries 10 through 39) in their original order — and each
stored entry is its original with exactly the `agentReasoning`,
`sourceDocuments` and `artifacts` fields removed and all other fields
kept.  The original claim omits the size proviso: an oversized 40-entry
record is not stored at all (see the counterexample). -/
theorem save_trims_history (st : Store) (id cid : List Char) (saveObj : JObj)
    (hist : List JVal)
    (hget : JObj.get saveObj chatHistoryKey = some (.jarr hist))
    (hlen : hist.length = 40)
    (hobjs : hist.all isObjVal = true)
    (hsize : trimmedSize cid saveObj ≤ 2000) :
    JObj.get (getLocalStorageChatflow (setLocalStorageChatflow st id cid saveObj) id)
        chatHistoryKey =
      some (.jarr ((hist.drop 10).map stripObj)) ∧
    ((hist.drop 10).map stripObj).length = 30 := by
  have hb : JObj.get (baseObj cid saveObj) chatHistoryKey = some (.jarr hist) :=
    (get_baseObj_history cid saveObj).trans hget
  have hall : (hist.drop 10).all isObjVal = true := by
    rw [List.all_eq_true] at hobjs ⊢
    exact fun x hx => hobjs x (List.drop_subset _ _ hx)
  have hdrop : hist.length - 30 = 10 := by omega
  have htrim : trimmedObj cid saveObj =
      some (JObj.set (baseObj cid saveObj) chatHistoryKey
        (.jarr ((hist.drop 10).map stripObj))) := by
    unfold trimmedObj
    simp only [hb]
    rw [hdrop, mapM_stripHeavy_of_objs hall]
    rfl
  have hsz : ¬ 2000 < utf8Len (serialize (.jobj (JObj.set (baseObj cid saveObj)
      chatHistoryKey (.jarr ((hist.drop 10).map stripObj))))) := by
    unfold trimmedSize at hsize
    simp only [htrim] at hsize
    omega
  have hstored : JObj.get (getLocalStorageChatflow
      (setLocalStorageChatflow st id cid saveObj) id) chatHistoryKey =
      some (.jarr ((hist.drop 10).map stripObj)) := by
    have hgetobj : JObj.get (JObj.set (baseObj cid saveObj) chatHistoryKey
        (.jarr ((hist.drop 10).map stripObj))) chatHistoryKey =
        some (.jarr ((hist.drop 10).map stripObj)) := JObj.get_set_self _ _ _
    cases hp : st (storageKey id) with
    | none =>
      rw [setLocal_fresh htrim hsz hp, load_after_set]
      exact hgetobj
    | some parsed =>
      rw [setLocal_merge htrim hsz hp, load_after_set]
      exact get_mergedRecord_of_truthy hgetobj rfl
  refine ⟨hstored, ?_⟩
  rw [List.length_map, List.length_drop, hlen]

set_option maxRecDepth 1000000 in
theorem save_trims_history_witness :
    JObj.get (getLocalStorageChatflow (setLocalStorageChatflow emptyStore "c".toList
        "i".toList [("chatHistory".toList,
          .jarr (List.replicate 40 (JVal.jobj [("t".toList, JVal.jstr "m".toList)])))]) "c".toList)
        chatHistoryKey =
      some (.jarr (((List.replicate 40 (JVal.jobj [("t".toList, JVal.jstr "m".toList)])).drop 10).map
        stripObj)) ∧
    (((List.replicate 40 (JVal.jobj [("t".toList, JVal.jstr "m".toList)])).drop 10).map
      stripObj).length = 30 :=
  save_trims_history emptyStore "c".toList "i".toList _ _ rfl rfl (by decide) (by decide)

/-- The 40-entry history whose trimmed serialization exceeds the cap. -/
def cexHist40 : List JVal :=
  List.replicate 40 (JVal.jobj [("text".toList, JVal.jstr (List.replicate 25 cjk))])

set_option maxRecDepth 1000000 in
/-- C7 counterexample: a record whose `chatHistory` is an array of 40
entries, each an object, whose trimmed serialization exceeds 2000 bytes:
`save` stores nothing at all, so the stored `chatHistory` does not have
exactly 30 entries as the claim (with no size proviso) states. -/
theorem history_cap_counterexample :
    cexHist40.length = 40 ∧
    cexHist40.all isObjVal = true ∧
    (setLocalStorageChatflow emptyStore "c".toList "i".toList
      [("chatHistory".toList, JVal.jarr cexHist40)]) (storageKey "c".toList) = none :=
  ⟨rfl, by decide, rfl⟩

/-! ## Save-then-load round trip on empty prior storage (C10) -/

/-- A field that is neither the chat identifier nor the chat history:
these are the fields the save operation leaves untouched. -/
def otherField (p : List Char × JVal) : Bool :=
  !(p.1 == chatIdKey || p.1 == chatHistoryKey)

theorem filter_otherField_set (o : JObj) (k : List Char) (v : JVal)
    (hk : (k == chatIdKey || k == chatHistoryKey) = true) :
    (JObj.set o k v).filter otherField = o.filter otherField := by
  have hof : ∀ w : JVal, otherField (k, w) = false := by
    intro w
    unfold otherField
    rw [hk]
    rfl
  unfold JObj.set
  split
  · rename_i hs
    clear hs
    induction o with
    | nil => rfl
    | cons p t ih =>
      simp only [List.map_cons]
      by_cases hp : p.1 = k
      · have h1 : otherField (p.1, v) = false := by rw [hp]; exact hof v
        have h2 : otherField p = false := by
          have h3 : otherField (p.1, p.2) = false := by rw [hp]; exact hof p.2
          exact h3
        rw [if_pos hp]
        rw [List.filter_cons_of_neg (by rw [h1]; exact Bool.false_ne_true),
          List.filter_cons_of_neg (by rw [h2]; exact Bool.false_ne_true), ih]
      · rw [if_neg hp]
        cases hq : otherField p with
        | true =>
          rw [List.filter_cons_of_pos hq, List.filter_cons_of_pos hq, ih]
        | false =>
          rw [List.filter_cons_of_neg (by rw [hq]; exact Bool.false_ne_true),
            List.filter_cons_of_neg (by rw [hq]; exact Bool.false_ne_true), ih]
  · rw [List.filter_append,
      List.filter_cons_of_neg (by rw [hof v]; exact Bool.false_ne_true),
      List.filter_nil, List.append_nil]

theorem trimmedObj_eq_base_of_not_arr {cid : List Char} {saveObj : JObj}
    (h : ∀ hist, JObj.get (baseObj cid saveObj) chatHistoryKey ≠ some (.jarr hist)) :
    trimmedObj cid saveObj = some (baseObj cid saveObj) := by
  unfold trimmedObj
  split
  · rename_i h0 heq
    exact absurd heq (h h0)
  · rfl

/-- C10: on a conversation identifier with no previously stored record,
for every non-empty `chatId` and every record whose trimmed serialization
is within the 2000-byte cap, `save` followed by `load` returns exactly the
trimmed record: `chatId` merged in, `chatHistory` (when it is an array)
truncated to the last 30 entries with the three heavyweight fields
stripped per entry, any non-array `chatHistory` and all other fields
unchanged. -/
theorem save_load_roundtrip (st : Store) (id cid : List Char) (saveObj obj : JObj)
    (hempty : st (storageKey id) = none) (hcid : cid ≠ [])
    (hobj : trimmedObj cid saveObj = some obj)
    (hsize : utf8Len (serialize (.jobj obj)) ≤ 2000) :
    getLocalStorageChatflow (setLocalStorageChatflow st id cid saveObj) id = obj ∧
    JObj.get obj chatIdKey = some (.jstr cid) ∧
    obj.filter otherField = saveObj.filter otherField ∧
    (match JObj.get saveObj chatHistoryKey with
     | some (JVal.jarr hist) =>
         JObj.get obj chatHistoryKey =
           ((hist.drop (hist.length - 30)).mapM stripHeavy).map (fun h2 => JVal.jarr h2)
     | some v => JObj.get obj chatHistoryKey = some v
     | none => JObj.get obj chatHistoryKey = none) := by
  have hnotover : ¬ 2000 < utf8Len (serialize (.jobj obj)) := by omega
  have h1 : getLocalStorageChatflow (setLocalStorageChatflow st id cid saveObj) id = obj := by
    rw [setLocal_fresh hobj hnotover hempty, load_after_set]
  have hbase_eq : baseObj cid saveObj = JObj.set saveObj chatIdKey (.jstr cid) := by
    unfold baseObj
    rw [if_pos]
    cases cid with
    | nil => exact absurd rfl hcid
    | cons c cs => rfl
  have hbase_id : JObj.get (baseObj cid saveObj) chatIdKey = some (.jstr cid) := by
    rw [hbase_eq]
    exact JObj.get_set_self _ _ _
  have hbase_filter : (baseObj cid saveObj).filter otherField = saveObj.filter otherField := by
    rw [hbase_eq]
    exact filter_otherField_set _ _ _ (by decide)
  refine ⟨h1, ?_⟩
  cases hx : JObj.get saveObj chatHistoryKey with
  | none =>
    have hnot : ∀ hist, JObj.get (baseObj cid saveObj) chatHistoryKey ≠
        some (.jarr hist) := by
      intro hist hc
      rw [get_baseObj_history, hx] at hc
      simp at hc
    have hobj_eq : obj = baseObj cid saveObj :=
      (Option.some.inj ((trimmedObj_eq_base_of_not_arr hnot).symm.trans hobj)).symm
    refine ⟨?_, ?_, ?_⟩
    · rw [hobj_eq]
      exact hbase_id
    · rw [hobj_eq]
      exact hbase_filter
    · simp only [hx]
      rw [hobj_eq, get_baseObj_history]
      exact hx
  | some v =>
    cases v with
    | jarr hist =>
      have hbh : JObj.get (baseObj cid saveObj) chatHistoryKey = some (.jarr hist) :=
        (get_baseObj_history cid saveObj).trans hx
      have htr0 : trimmedObj cid saveObj =
          ((hist.drop (hist.length - 30)).mapM stripHeavy).map
            (fun h2 => JObj.set (baseObj cid saveObj) chatHistoryKey (.jarr h2)) := by
        unfold trimmedObj
        simp only [hbh]
      cases hm : (hist.drop (hist.length - 30)).mapM stripHeavy with
      | none =>
        rw [htr0, hm] at hobj
        simp at hobj
      | some h2 =>
        have hobj_eq : obj =
            JObj.set (baseObj cid saveObj) chatHistoryKey (.jarr h2) := by
          rw [htr0, hm] at hobj
          simp only [Option.map_some, Option.map_some', Option.some.injEq] at hobj
          exact hobj.symm
        refine ⟨?_, ?_, ?_⟩
        · rw [hobj_eq, JObj.get_set_other _ _ _ _ (by decide)]
          exact hbase_id
        · rw [hobj_eq, filter_otherField_set _ _ _ (by decide)]
          exact hbase_filter
        · simp only [hx]
          rw [hobj_eq, JObj.get_set_self, hm]
          rfl
    | jnull =>
      have hnot : ∀ hist, JObj.get (baseObj cid saveObj) chatHistoryKey ≠
          some (.jarr hist) := by
        intro hist hc
        rw [get_baseObj_history, hx] at hc
        simp at hc
      have hobj_eq : obj = baseObj cid saveObj :=
        (Option.some.inj ((trimmedObj_eq_base_of_not_arr hnot).symm.trans hobj)).symm
      refine ⟨?_, ?_, ?_⟩
      · rw [hobj_eq]
        exact hbase_id
      · rw [hobj_eq]
        exact hbase_filter
      · simp only [hx]
        rw [hobj_eq, get_baseObj_history]
        exact hx
    | jbool b =>
      have hnot : ∀ hist, JObj.get (baseObj cid saveObj) chatHistoryKey ≠
          some (.jarr hist) := by
        intro hist hc
        rw [get_baseObj_history, hx] at hc
        simp at hc
      have hobj_eq : obj = baseObj cid saveObj :=
        (Option.some.inj ((trimmedObj_eq_base_of_not_arr hnot).symm.trans hobj)).symm
      refine ⟨?_, ?_, ?_⟩
      · rw [hobj_eq]
        exact hbase_id
      · rw [hobj_eq]
        exact hbase_filter
      · simp only [hx]
        rw [hobj_eq, get_baseObj_history]
        exact hx
    | jnum n =>
      have hnot : ∀ hist, JObj.get (baseObj cid saveObj) chatHistoryKey ≠
          some (.jarr hist) := by
        intro hist hc
        rw [get_baseObj_history, hx] at hc
        simp at hc
      have hobj_eq : obj = baseObj cid saveObj :=
        (Option.some.inj ((trimmedObj_eq_base_of_not_arr hnot).symm.trans hobj)).symm
      refine ⟨?_, ?_, ?_⟩
      · rw [hobj_eq]
        exact hbase_id
      · rw [hobj_eq]
        exact hbase_filter
      · simp only [hx]
        rw [hobj_eq, get_baseObj_history]
        exact hx
    | jstr s2 =>
      have hnot : ∀ hist, JObj.get (baseObj cid saveObj) chatHistoryKey ≠
          some (.jarr hist) := by
        intro hist hc
        rw [get_baseObj_history, hx] at hc
        simp at hc
      have hobj_eq : obj = baseObj cid saveObj :=
        (Option.some.inj ((trimmedObj_eq_base_of_not_arr hnot).symm.trans hobj)).symm
      refine ⟨?_, ?_, ?_⟩
      · rw [hobj_eq]
        exact hbase_id
      · rw [hobj_eq]
        exact hbase_filter
      · simp only [hx]
        rw [hobj_eq, get_baseObj_history]
        exact hx
    | jobj fs =>
      have hnot : ∀ hist, JObj.get (baseObj cid saveObj) chatHistoryKey ≠
          some (.jarr hist) := by
        intro hist hc
        rw [get_baseObj_history, hx] at hc
        simp at hc
      have hobj_eq : obj = baseObj cid saveObj :=
        (Option.some.inj ((trimmedObj_eq_base_of_not_arr hnot).symm.trans hobj)).symm
      refine ⟨?_, ?_, ?_⟩
      · rw [hobj_eq]
        exact hbase_id
      · rw [hobj_eq]
        exact hbase_filter
      · simp only [hx]
        rw [hobj_eq, get_baseObj_history]
        exact hx

set_option maxRecDepth 100000 in
theorem save_load_roundtrip_witness :
    getLocalStorageChatflow (setLocalStorageChatflow emptyStore "c".toList "i".toList
      [("chatHistory".toList, JVal.jarr [JVal.jobj [("t".toList, JVal.jstr "m".toList),
        ("agentReasoning".toList, JVal.jarr [])]]), ("x".toList, JVal.jstr "y".toList)])
      "c".toList =
      [("chatHistory".toList, JVal.jarr [JVal.jobj [("t".toList, JVal.jstr "m".toList)]]),
       ("x".toList, JVal.jstr "y".toList), ("chatId".toList, JVal.jstr "i".toList)] ∧
    JObj.get [("chatHistory".toList, JVal.jarr [JVal.jobj [("t".toList, JVal.jstr "m".toList)]]),
       ("x".toList, JVal.jstr "y".toList), ("chatId".toList, JVal.jstr "i".toList)] chatIdKey =
      some (.jstr "i".toList) ∧
    List.filter otherField
      [("chatHistory".toList, JVal.jarr [JVal.jobj [("t".toList, JVal.jstr "m".toList)]]),
       ("x".toList, JVal.jstr "y".toList), ("chatId".toList, JVal.jstr "i".toList)] =
      List.filter otherField
        [("chatHistory".toList, JVal.jarr [JVal.jobj [("t".toList, JVal.jstr "m".toList),
          ("agentReasoning".toList, JVal.jarr [])]]), ("x".toList, JVal.jstr "y".toList)] ∧
    (match JObj.get [("chatHistory".toList, JVal.jarr [JVal.jobj [("t".toList,
        JVal.jstr "m".toList), ("agentReasoning".toList, JVal.jarr [])]]),
        ("x".toList, JVal.jstr "y".toList)] chatHistoryKey with
     | some (JVal.jarr hist) =>
         JObj.get [("chatHistory".toList, JVal.jarr [JVal.jobj [("t".toList,
             JVal.jstr "m".toList)]]), ("x".toList, JVal.jstr "y".toList),
             ("chatId".toList, JVal.jstr "i".toList)] chatHistoryKey =
           ((hist.drop (hist.length - 30)).mapM stripHeavy).map (fun h2 => JVal.jarr h2)
     | some v => JObj.get [("chatHistory".toList, JVal.jarr [JVal.jobj [("t".toList,
         JVal.jstr "m".toList)]]), ("x".toList, JVal.jstr "y".toList),
         ("chatId".toList, JVal.jstr "i".toList)] chatHistoryKey = some v
     | none => JObj.get [("chatHistory".toList, JVal.jarr [JVal.jobj [("t".toList,
         JVal.jstr "m".toList)]]), ("x".toList, JVal.jstr "y".toList),
         ("chatId".toList, JVal.jstr "i".toList)] chatHistoryKey = none) :=
  save_load_roundtrip emptyStore "c".toList "i".toList _ _ rfl (by decide) rfl (by decide)

/-! ## Markdown renderer and sanitizer (`MarkdownParser.parse`,
LoadingBubble.tsx 147-221)

`markdown-it`'s `render` and the browser's HTML parsing inside DOMPurify
are external collaborators, passed in as function parameters; an
exception any of them may throw is modelled as `Except.error`.  The
null/undefined input branch is modelled by an `Option` input; the
non-string coercion branch is outside the string model. -/

/-- A parsed HTML forest node: text, or an element with a tag, attributes
(name-value pairs) and children. -/
inductive HNode where
  | text : List Char → HNode
  | elem : List Char → List (List Char × List Char) → List HNode → HNode

/-- `ALLOWED_TAGS` from the DOMPurify configuration (LoadingBubble.tsx
172-202). -/
def ALLOWED_TAGS : List (List Char) :=
  ["p", "br", "strong", "em", "u", "s", "code", "pre", "a", "ul", "ol", "li",
   "blockquote", "h1", "h2", "h3", "h4", "h5", "h6", "table", "thead", "tbody",
   "tr", "th", "td", "hr", "img", "span", "div"].map String.toList

/-- `ALLOWED_ATTR` from the DOMPurify configuration (LoadingBubble.tsx 203). -/
def ALLOWED_ATTR : List (List Char) :=
  ["href", "target", "rel", "class", "src", "alt", "title"].map String.toList

mutual

/-- Modelled from the spec: `DOMPurify.sanitize` itself is a third-party
dependency whose implementation is not in src/; per the spec it is "a
sanitizer allow-listing exactly this tag set ... and this attribute set",
so an element with a tag outside `ALLOWED_TAGS` is removed (its sanitized
children are kept), and attributes outside `ALLOWED_ATTR` are stripped. -/
def sanitizeNode : HNode → List HNode
  | .text s => [.text s]
  | .elem t attrs cs =>
    if t ∈ ALLOWED_TAGS then
      [.elem t (attrs.filter (fun a => a.1 ∈ ALLOWED_ATTR)) (sanitizeNodes cs)]
    else sanitizeNodes cs

/-- `sanitizeNode` over a forest. -/
def sanitizeNodes : List HNode → List HNode
  | [] => []
  | n :: ns => sanitizeNode n ++ sanitizeNodes ns

end

/-- Serialization of one character of a DOM text node, as produced by
`div.textContent = text; div.innerHTML` (the source's `escapeHtml`):
`&`, `<`, `>` and the non-breaking space are entity-escaped. -/
def escapeHtmlChar (c : Char) : List Char :=
  if c = '&' then "&amp;".toList
  else if c = '<' then "&lt;".toList
  else if c = '>' then "&gt;".toList
  else if c.toNat = 0xa0 then "&nbsp;".toList
  else [c]

/-- `MarkdownParser.escapeHtml` (LoadingBubble.tsx 217-221): the DOM
text-node serialization of a string. -/
def escapeHtml (s : List Char) : List Char :=
  s.flatMap escapeHtmlChar

/-- Serialization of one character inside a double-quoted attribute value. -/
def escapeAttrChar (c : Char) : List Char :=
  if c = '&' then "&amp;".toList
  else if c = '"' then "&quot;".toList
  else if c.toNat = 0xa0 then "&nbsp;".toList
  else [c]

mutual

/-- Browser serialization of a DOM node back to HTML text. -/
def serializeNode : HNode → List Char
  | .text s => escapeHtml s
  | .elem t attrs cs =>
    '<' :: (t ++ attrs.flatMap
        (fun a => ' ' :: (a.1 ++ '=' :: '"' :: (a.2.flatMap escapeAttrChar ++ ['"']))) ++
      ['>']) ++ serializeNodes cs ++ '<' :: '/' :: (t ++ ['>'])

/-- Serialization of a forest. -/
def serializeNodes : List HNode → List Char
  | [] => []
  | n :: ns => serializeNode n ++ serializeNodes ns

end

/-- The body of the `try` block of `MarkdownParser.parse`: empty result
for nullish or blank input, otherwise preprocess, render, and sanitize
when enabled (DOMPurify parses the HTML into a DOM forest, filters it,
and serializes it back). -/
def parsePipeline (render : List Char → Except Unit (List Char))
    (domParse : List Char → Except Unit (List HNode))
    (sanitize : Bool) (markdown : Option (List Char)) : Except Unit (List Char) :=
  match markdown with
  | none => .ok []
  | some s =>
    if trimL s = [] then .ok []
    else
      match render (preprocessL s) with
      | .error e => .error e
      | .ok html =>
        if sanitize then
          match domParse html with
          | .error e => .error e
          | .ok doc => .ok (serializeNodes (sanitizeNodes doc))
        else .ok html

/-- `MarkdownParser.parse` (LoadingBubble.tsx 147-215): the `try` block
with the `catch` falling back to the HTML-escaped raw input. -/
def MarkdownParser.parse (render : List Char → Except Unit (List Char))
    (domParse : List Char → Except Unit (List HNode))
    (sanitize : Bool) (markdown : Option (List Char)) : List Char :=
  match parsePipeline render domParse sanitize markdown with
  | .ok h => h
  | .error _ => escapeHtml (markdown.getD [])

/-! ## Predicates over sanitized output (C1) -/

mutual

/-- No element in the tree is a `<script>` element. -/
def nodeNoScript : HNode → Bool
  | .text _ => true
  | .elem t _ cs => !(t == "script".toList) && nodesNoScript cs

def nodesNoScript : List HNode → Bool
  | [] => true
  | n :: ns => nodeNoScript n && nodesNoScript ns

end

mutual

/-- No attribute anywhere in the tree has a name starting with `on`. -/
def nodeNoOnAttr : HNode → Bool
  | .text _ => true
  | .elem _ attrs cs =>
    attrs.all (fun a => !(List.isPrefixOf "on".toList a.1)) && nodesNoOnAttr cs

def nodesNoOnAttr : List HNode → Bool
  | [] => true
  | n :: ns => nodeNoOnAttr n && nodesNoOnAttr ns

end

theorem nodesNoScript_append (a b : List HNode) :
    nodesNoScript (a ++ b) = (nodesNoScript a && nodesNoScript b) := by
  induction a with
  | nil => simp [nodesNoScript]
  | cons n ns ih => simp [nodesNoScript, ih, Bool.and_assoc]

theorem nodesNoOnAttr_append (a b : List HNode) :
    nodesNoOnAttr (a ++ b) = (nodesNoOnAttr a && nodesNoOnAttr b) := by
  induction a with
  | nil => simp [nodesNoOnAttr]
  | cons n ns ih => simp [nodesNoOnAttr, ih, Bool.and_assoc]

theorem nodesNoScript_singleton (n : HNode) : nodesNoScript [n] = nodeNoScript n := by
  show (nodeNoScript n && nodesNoScript []) = nodeNoScript n
  rw [show nodesNoScript [] = true from rfl, Bool.and_true]

theorem nodesNoOnAttr_singleton (n : HNode) : nodesNoOnAttr [n] = nodeNoOnAttr n := by
  show (nodeNoOnAttr n && nodesNoOnAttr []) = nodeNoOnAttr n
  rw [show nodesNoOnAttr [] = true from rfl, Bool.and_true]

mutual

theorem sanitizeNode_safe : ∀ n : HNode,
    nodesNoScript (sanitizeNode n) = true ∧ nodesNoOnAttr (sanitizeNode n) = true
  | .text s => by
    constructor
    · rfl
    · rfl
  | .elem t attrs cs => by
    have hcs := sanitizeNodes_safe cs
    unfold sanitizeNode
    split
    · rename_i ht
      have hts : (t == "script".toList) = false :=
        beq_eq_false_iff_ne.mpr (fun hteq => absurd (hteq ▸ ht) (by decide))
      have hattrs : (attrs.filter (fun a => a.1 ∈ ALLOWED_ATTR)).all
          (fun a => !(List.isPrefixOf "on".toList a.1)) = true := by
        rw [List.all_eq_true]
        intro a ha
        have hmem2 : a.1 ∈ ALLOWED_ATTR := of_decide_eq_true (List.mem_filter.mp ha).2
        have hno : ∀ x ∈ ALLOWED_ATTR, List.isPrefixOf "on".toList x = false := by decide
        rw [hno a.1 hmem2]
        rfl
      constructor
      · rw [nodesNoScript_singleton]
        unfold nodeNoScript
        rw [hts, hcs.1]
        rfl
      · rw [nodesNoOnAttr_singleton]
        unfold nodeNoOnAttr
        rw [hattrs, hcs.2]
        rfl
    · exact hcs

theorem sanitizeNodes_safe : ∀ ns : List HNode,
    nodesNoScript (sanitizeNodes ns) = true ∧ nodesNoOnAttr (sanitizeNodes ns) = true
  | [] => by
    constructor
    · rfl
    · rfl
  | n :: ns => by
    have h1 := sanitizeNode_safe n
    have h2 := sanitizeNodes_safe ns
    unfold sanitizeNodes
    rw [nodesNoScript_append, nodesNoOnAttr_append, h1.1, h1.2, h2.1, h2.2]
    constructor
    · rfl
    · rfl

end

theorem serializeNodes_singleton_text (s : List Char) :
    serializeNodes [.text s] = escapeHtml s := by
  show serializeNode (.text s) ++ serializeNodes [] = escapeHtml s
  rw [show serializeNodes [] = [] from rfl, List.append_nil]
  rfl

/-- C1: with the sanitize-enabled configuration, for every renderer and
DOM-parser behaviour (hence for every input, including adversarial raw
HTML embedded in the markdown) the HTML string returned by
`MarkdownParser.parse` is the serialization of a sanitized node forest
that contains no `<script>` element and no `on*` event-handler attribute.
The sanitizer is modelled from the spec's allow-list contract since
DOMPurify's implementation is a third-party dependency outside src/. -/
theorem parse_sanitized_safe (render : List Char → Except Unit (List Char))
    (domParse : List Char → Except Unit (List HNode)) (md : Option (List Char)) :
    ∃ ns : List HNode,
      MarkdownParser.parse render domParse true md = serializeNodes ns ∧
      nodesNoScript ns = true ∧ nodesNoOnAttr ns = true := by
  cases md with
  | none => exact ⟨[], rfl, rfl, rfl⟩
  | some s =>
    by_cases htr : trimL s = []
    · refine ⟨[], ?_, rfl, rfl⟩
      unfold MarkdownParser.parse
      simp only [parsePipeline]
      rw [if_pos htr]
      rfl
    · cases hr : render (preprocessL s) with
      | error e =>
        refine ⟨[.text s], ?_, rfl, rfl⟩
        unfold MarkdownParser.parse
        simp only [parsePipeline]
        rw [if_neg htr]
        simp only [hr]
        rw [serializeNodes_singleton_text]
        rfl
      | ok html =>
        cases hd : domParse html with
        | error e =>
          refine ⟨[.text s], ?_, rfl, rfl⟩
          unfold MarkdownParser.parse
          simp only [parsePipeline]
          rw [if_neg htr]
          simp only [hr, hd]
          rw [serializeNodes_singleton_text]
          rfl
        | ok doc =>
          refine ⟨sanitizeNodes doc, ?_,
            (sanitizeNodes_safe doc).1, (sanitizeNodes_safe doc).2⟩
          unfold MarkdownParser.parse
          simp only [parsePipeline]
          rw [if_neg htr]
          simp only [hr, hd]
          rfl

/-- C8: `MarkdownParser.parse` never lets an exception escape: whenever
any stage of the pipeline — preprocessing, markdown rendering, or
sanitization (modelled as the `Except`-valued pipeline) — fails, `parse`
catches the exception and returns the HTML-escaped raw input text. -/
theorem parse_catches_exceptions (render : List Char → Except Unit (List Char))
    (domParse : List Char → Except Unit (List HNode)) (san : Bool)
    (s : List Char) (e : Unit)
    (herr : parsePipeline render domParse san (some s) = .error e) :
    MarkdownParser.parse render domParse san (some s) = escapeHtml s := by
  unfold MarkdownParser.parse
  simp only [herr]
  rfl

theorem parse_catches_exceptions_witness :
    MarkdownParser.parse (fun _ => .error ()) (fun _ => .ok []) true (some "x".toList) =
      escapeHtml "x".toList :=
  parse_catches_exceptions (fun _ => .error ()) (fun _ => .ok []) true "x".toList () rfl

end Flowise
